import Mathlib

/-!
Verification of the Union-Find / clustering solver of `src/day8/solution.py`.

The Python code is shallowly embedded: mutable state becomes explicit state
passing, Python list indexing (including negative indices and `IndexError`)
is modelled by `Option`-valued access, the recursive `find` with path
compression is modelled with a fuel parameter (fuel exhaustion models
non-termination / `RecursionError` on a cyclic parent graph), and
`math.sqrt` on exact integer radicands is modelled by `Real.sqrt`.
-/

set_option autoImplicit false

namespace Day8

/-- Python list indexing: index `i` into a list of length `n` resolves to
slot `i` for `0 ≤ i < n`, to slot `n + i` for `-n ≤ i < 0`, and raises
`IndexError` (here: `none`) otherwise. -/
def pyIdx (n : Nat) (i : Int) : Option Nat :=
  if 0 ≤ i ∧ i < (n : Int) then some i.toNat
  else if -(n : Int) ≤ i ∧ i < 0 then some (i + (n : Int)).toNat
  else none

/-- Python read `l[i]`. -/
def pyGet {α : Type _} (l : List α) (i : Int) : Option α :=
  (pyIdx l.length i).bind (fun k => l.get? k)

/-- Python write `l[i] = v`. -/
def pySet {α : Type _} (l : List α) (i : Int) (v : α) : Option (List α) :=
  (pyIdx l.length i).map (fun k => l.set k v)

/-- The state of the Python `UnionFind` class: `parent` and `rank` lists and
the live `component_count` counter. -/
structure UnionFind where
  parent : List Int
  rank : List Int
  component_count : Int
  deriving DecidableEq, Repr

/-- `UnionFind.__init__(size)`: `parent = list(range(size))`,
`rank = [0] * size`, `component_count = size`. -/
def UnionFind.init (size : Nat) : UnionFind :=
  { parent := (List.range size).map Int.ofNat,
    rank := List.replicate size 0,
    component_count := (size : Int) }

/-- Fuel-indexed embedding of `UnionFind.find` (recursive, with path
compression):

```
if self.parent[x] != x:
    self.parent[x] = self.find(self.parent[x])
return self.parent[x]
```

Reads and writes go through Python indexing; the mutated `self` is threaded
through.  `none` models an uncaught `IndexError` or a non-terminating
recursion. -/
def findAux : Nat → UnionFind → Int → Option (UnionFind × Int)
  | 0, _, _ => none
  | fuel + 1, uf, x =>
    match pyGet uf.parent x with
    | none => none
    | some p =>
      if p = x then some (uf, p)
      else
        match findAux fuel uf p with
        | none => none
        | some (uf', r) =>
          match pySet uf'.parent x r with
          | none => none
          | some par => some ({ uf' with parent := par }, r)

/-- `UnionFind.find(x)`.  A parent chain in an `n`-node forest has fewer than
`n` edges, so fuel `n + 1` suffices for every state the code can reach. -/
def UnionFind.find (uf : UnionFind) (x : Int) : Option (UnionFind × Int) :=
  findAux (uf.parent.length + 1) uf x

/-- `UnionFind.union(x, y)`: union by rank.  Returns the updated structure and
the boolean result (`True` iff a merge occurred). -/
def UnionFind.union (uf : UnionFind) (x y : Int) : Option (UnionFind × Bool) :=
  match uf.find x with
  | none => none
  | some (uf1, root_x) =>
    match uf1.find y with
    | none => none
    | some (uf2, root_y) =>
      if root_x = root_y then some (uf2, false)
      else
        match pyGet uf2.rank root_x, pyGet uf2.rank root_y with
        | some rank_x, some rank_y =>
          if rank_x < rank_y then
            match pySet uf2.parent root_x root_y with
            | none => none
            | some par =>
              some ({ uf2 with
                        parent := par
                        component_count := uf2.component_count - 1 }, true)
          else if rank_y < rank_x then
            match pySet uf2.parent root_y root_x with
            | none => none
            | some par =>
              some ({ uf2 with
                        parent := par
                        component_count := uf2.component_count - 1 }, true)
          else
            match pySet uf2.parent root_y root_x, pySet uf2.rank root_x (rank_x + 1) with
            | some par, some rk =>
              some ({ parent := par
                      rank := rk
                      component_count := uf2.component_count - 1 }, true)
            | _, _ => none
        | _, _ => none

/-- One step of the Python dict update `size_map[root] = size_map.get(root, 0) + 1`
on an insertion-ordered association list. -/
def bump : List (Int × Int) → Int → List (Int × Int)
  | [], r => [(r, 1)]
  | (k, v) :: rest, r => if k = r then (k, v + 1) :: rest else (k, v) :: bump rest r

/-- The loop of `get_component_sizes`, threading the mutated structure. -/
def sizeMapAux : UnionFind → List Nat → List (Int × Int) → Option (UnionFind × List (Int × Int))
  | uf, [], m => some (uf, m)
  | uf, i :: is, m =>
    match uf.find (i : Int) with
    | none => none
    | some (uf', root) => sizeMapAux uf' is (bump m root)

/-- The `size_map` dict built by `get_component_sizes`, as an
insertion-ordered association list, together with the mutated structure. -/
def UnionFind.size_map (uf : UnionFind) : Option (UnionFind × List (Int × Int)) :=
  sizeMapAux uf (List.range uf.parent.length) []

/-- `UnionFind.get_component_sizes()`: `list(size_map.values())`. -/
def UnionFind.get_component_sizes (uf : UnionFind) : Option (UnionFind × List Int) :=
  (uf.size_map).map (fun q => (q.1, q.2.map (fun e => e.2)))

/-- A parsed input point `(x, y, z)`. -/
abbrev Coordinate := Int × Int × Int

/-- A `(distance, index1, index2)` triple. -/
abbrev DistancePair := ℝ × Int × Int

/-- `calculate_distance`: Euclidean distance.  The Python code squares and
sums exact integers and applies `math.sqrt`; the square root is modelled
exactly over the reals. -/
noncomputable def calculate_distance (coord1 coord2 : Coordinate) : ℝ :=
  let dx := coord2.1 - coord1.1
  let dy := coord2.2.1 - coord1.2.1
  let dz := coord2.2.2 - coord1.2.2
  Real.sqrt ((dx * dx + dy * dy + dz * dz : Int) : ℝ)

/-- `calculate_all_distances`: `for i in range(n): for j in range(i+1, n)`,
appending `(dist, i, j)`. -/
noncomputable def calculate_all_distances (coordinates : List Coordinate) : List DistancePair :=
  (List.range coordinates.length).flatMap (fun i =>
    (List.range' (i + 1) (coordinates.length - (i + 1))).map (fun j =>
      (calculate_distance (coordinates.getD i (0, 0, 0)) (coordinates.getD j (0, 0, 0)),
        (i : Int), (j : Int))))

/-- `determine_part1_connections`: 20 ↦ 10, 1000 ↦ 1000, otherwise `n // 2`. -/
def determine_part1_connections (num_coords : Nat) : Nat :=
  if num_coords = 20 then 10
  else if num_coords = 1000 then 1000
  else num_coords / 2

/-- The number of part-1 connections as computed in `main`:
`determine_part1_connections(len(coordinates))`. -/
def main_part1_connections (coordinates : List Coordinate) : Nat :=
  determine_part1_connections coordinates.length

/-- The scan loop of `solve_part2`.  `Except.error` models the uncaught
exception: the final `raise ValueError(...)` after an exhausted scan, or an
`IndexError` from an out-of-range index. -/
def part2Loop : UnionFind → List Coordinate → List DistancePair → Except String Int
  | _, _, [] => Except.error "Failed to unify all coordinates into single component"
  | uf, coordinates, p :: rest =>
    match uf.union p.2.1 p.2.2 with
    | none => Except.error "IndexError"
    | some (uf', unified) =>
      if unified = true ∧ uf'.component_count = 1 then
        match pyGet coordinates p.2.1, pyGet coordinates p.2.2 with
        | some c1, some c2 => Except.ok (c1.1 * c2.1)
        | _, _ => Except.error "IndexError"
      else part2Loop uf' coordinates rest

/-- `solve_part2(coordinates, sorted_distances)`. -/
def solve_part2 (coordinates : List Coordinate) (sorted_distances : List DistancePair) :
    Except String Int :=
  part2Loop (UnionFind.init coordinates.length) coordinates sorted_distances

/-- The stop condition of the `solve_part2` scan at a pair `p`: the `union`
call returns `True` and leaves exactly one component. -/
def unifies (uf : UnionFind) (p : DistancePair) : Prop :=
  (uf.union p.2.1 p.2.2).map (fun q => (q.2, q.1.component_count)) = some (true, 1)

/-- The structure state after scanning a prefix of the pair list
(`none` if some union raised). -/
def ufAfter (uf : UnionFind) : List DistancePair → Option UnionFind
  | [] => some uf
  | p :: rest =>
    match uf.union p.2.1 p.2.2 with
    | none => none
    | some (uf', _) => ufAfter uf' rest

/-- An operation on the structure, for reachability statements. -/
inductive Op where
  | find (x : Int)
  | union (x y : Int)

/-- Run one operation; the boolean records a `True`-returning union. -/
def applyOp (uf : UnionFind) : Op → Option (UnionFind × Bool)
  | Op.find x => (uf.find x).map (fun q => (q.1, false))
  | Op.union x y => uf.union x y

/-- Run a sequence of operations, counting `True`-returning unions. -/
def applyOps (uf : UnionFind) : List Op → Option (UnionFind × Nat)
  | [] => some (uf, 0)
  | op :: rest =>
    match applyOp uf op with
    | none => none
    | some (uf1, b) =>
      (applyOps uf1 rest).map (fun q => (q.1, (if b then 1 else 0) + q.2))

/-! ### The parent forest -/

/-- One parent-pointer step on slot indices (meaningful on in-range slots of
an in-range parent list). -/
def pstep (par : List Int) (i : Nat) : Nat :=
  (par.getD i 0).toNat

/-- Slot `i` is a root: its parent pointer is itself. -/
def IsRoot (par : List Int) (i : Nat) : Prop :=
  pstep par i = i

/-- The parent chain from `i` reaches a root. -/
def Reaches (par : List Int) (i : Nat) : Prop :=
  ∃ k : Nat, IsRoot par ((pstep par)^[k] i)

/-- The parent mapping is a forest: every chain reaches a root (equivalently,
following parent pointers never cycles). -/
def Forest (par : List Int) : Prop :=
  ∀ i, i < par.length → Reaches par i

/-- All stored parent pointers are in range. -/
def InRange (par : List Int) : Prop :=
  ∀ p, p ∈ par → 0 ≤ p ∧ p < (par.length : Int)

/-- The root of `i`'s chain, by chasing `length`-many steps (correct whenever
the chain reaches a root within `length` steps). -/
def rootOf (par : List Int) (i : Nat) : Nat :=
  (pstep par)^[par.length] i

/-- Well-formedness of a `UnionFind` state: equal list lengths, in-range
parent pointers, and a forest-shaped parent mapping. -/
def WF (uf : UnionFind) : Prop :=
  uf.parent.length = uf.rank.length ∧ InRange uf.parent ∧ Forest uf.parent


/-! ### Python indexing lemmas -/

theorem pyIdx_some_lt {n : Nat} {i : Int} {k : Nat} (h : pyIdx n i = some k) : k < n := by
  unfold pyIdx at h
  split at h
  · rename_i hc
    cases h
    omega
  · split at h
    · rename_i hc
      cases h
      omega
    · cases h

theorem pyIdx_nonneg {n : Nat} {i : Int} (h0 : 0 ≤ i) (h1 : i < (n : Int)) :
    pyIdx n i = some i.toNat := by
  unfold pyIdx
  rw [if_pos ⟨h0, h1⟩]

theorem pyIdx_none {n : Nat} {i : Int} (h : (n : Int) ≤ i ∨ i < -(n : Int)) :
    pyIdx n i = none := by
  unfold pyIdx
  rw [if_neg (by omega), if_neg (by omega)]

theorem pyGet_none {α : Type _} {l : List α} {i : Int}
    (h : (l.length : Int) ≤ i ∨ i < -(l.length : Int)) : pyGet l i = none := by
  unfold pyGet
  rw [pyIdx_none h]
  rfl

theorem pyGet_some_idx {α : Type _} {l : List α} {i : Int} {v : α} (h : pyGet l i = some v) :
    ∃ k, pyIdx l.length i = some k ∧ k < l.length ∧ l.get? k = some v := by
  unfold pyGet at h
  cases hk : pyIdx l.length i with
  | none => rw [hk] at h; cases h
  | some k =>
    rw [hk] at h
    exact ⟨k, rfl, pyIdx_some_lt hk, h⟩

theorem pySet_of_idx {α : Type _} {l : List α} {i : Int} {k : Nat} (v : α)
    (h : pyIdx l.length i = some k) : pySet l i v = some (l.set k v) := by
  unfold pySet
  rw [h]
  rfl

theorem pySet_some {α : Type _} {l l' : List α} {i : Int} {v : α} (h : pySet l i v = some l') :
    ∃ k, pyIdx l.length i = some k ∧ k < l.length ∧ l' = l.set k v := by
  unfold pySet at h
  cases hk : pyIdx l.length i with
  | none => rw [hk] at h; cases h
  | some k =>
    rw [hk] at h
    cases h
    exact ⟨k, rfl, pyIdx_some_lt hk, rfl⟩

theorem pySet_length {α : Type _} {l l' : List α} {i : Int} {v : α}
    (h : pySet l i v = some l') : l'.length = l.length := by
  obtain ⟨k, -, -, rfl⟩ := pySet_some h
  simp

theorem pyGet_pySet_self {α : Type _} {l l' : List α} {i : Int} {v : α}
    (h : pySet l i v = some l') : pyGet l' i = some v := by
  obtain ⟨k, hk, hlt, rfl⟩ := pySet_some h
  unfold pyGet
  rw [List.length_set, hk]
  simpa using List.get?_set_eq_of_lt v hlt

theorem pyGet_nonneg_lt {α : Type _} {l : List α} {i : Int} (h0 : 0 ≤ i)
    (h1 : i < (l.length : Int)) : pyGet l i = l.get? i.toNat := by
  unfold pyGet
  rw [pyIdx_nonneg h0 h1]
  rfl

/-! ### C10: part-1 connection count -/

/-- C10: the bounded-prefix connection count is derived from the input size in
`main`: 20 points give 10, 1000 points give 1000, any other count `n` gives
`n / 2` (floor division). -/
theorem part1_connections_from_size (coordinates : List Coordinate) :
    (coordinates.length = 20 → main_part1_connections coordinates = 10) ∧
    (coordinates.length = 1000 → main_part1_connections coordinates = 1000) ∧
    (coordinates.length ≠ 20 → coordinates.length ≠ 1000 →
      main_part1_connections coordinates = coordinates.length / 2) := by
  unfold main_part1_connections determine_part1_connections
  refine ⟨fun h => ?_, fun h => ?_, fun h1 h2 => ?_⟩
  · rw [if_pos h]
  · rw [if_neg (by omega), if_pos h]
  · rw [if_neg h1, if_neg h2]

/-- Witness for C10 at a concrete 20-point input. -/
theorem part1_connections_from_size_witness :
    main_part1_connections (List.replicate 20 ((0, 0, 0) : Coordinate)) = 10 :=
  (part1_connections_from_size (List.replicate 20 ((0, 0, 0) : Coordinate))).1 (by simp)

/-! ### C5: out-of-range find -/

/-- An index at or beyond `size`, or below `-size`, makes the very first
list read of `find` raise `IndexError`. -/
theorem find_out_of_range (uf : UnionFind) (x : Int)
    (h : (uf.parent.length : Int) ≤ x ∨ x < -(uf.parent.length : Int)) :
    uf.find x = none := by
  unfold UnionFind.find
  show findAux (uf.parent.length + 1) uf x = none
  rw [findAux, pyGet_none h]

/-- Counterexample to C5 as stated: for a structure of size 3 the index `-1`
is outside `[0, 3)`, yet `find(-1)` does not fail — Python negative indexing
silently returns the representative `2`. -/
theorem find_negative_index_counterexample :
    (UnionFind.init 3).find (-1) = some (UnionFind.init 3, 2) ∧
    ¬ (0 ≤ (-1 : Int)) ∧ (UnionFind.init 3).find (-1) ≠ none := by
  refine ⟨by decide, by decide, by decide⟩

/-! ### C6: degenerate size-1 input -/

/-- C6: evaluation at the failing input.  For a single coordinate,
`ComponentSizes()` is `[1]` as the claim states, but the full scan over the
empty pair list does not complete vacuously: `solve_part2` falls through the
loop and raises `ValueError`, although the lone point already forms a single
component. -/
theorem size_one_component_sizes_and_part2 :
    (UnionFind.init 1).get_component_sizes = some (UnionFind.init 1, [1]) ∧
    solve_part2 [((0 : Int), (0 : Int), (0 : Int))] []
      = Except.error "Failed to unify all coordinates into single component" :=
  ⟨rfl, rfl⟩

/-! ### C1: union-by-rank attachment direction -/

/-- C1 (amended): in `union(x, y)`, when the two roots' ranks differ the root
with the strictly smaller rank is attached under the root with the larger
rank; on a tie the chosen new root is the root of `x`'s tree (`root_y` is
attached under `root_x`) and the chosen root's rank is incremented by exactly
one. -/
theorem union_by_rank_direction (uf uf1 uf2 : UnionFind) (x y root_x root_y rank_x rank_y : Int)
    (hx : uf.find x = some (uf1, root_x)) (hy : uf1.find y = some (uf2, root_y))
    (hne : root_x ≠ root_y)
    (hrx : pyGet uf2.rank root_x = some rank_x) (hry : pyGet uf2.rank root_y = some rank_y)
    (hlen : uf2.parent.length = uf2.rank.length) :
    ∃ uf', uf.union x y = some (uf', true) ∧
      (rank_x < rank_y → pyGet uf'.parent root_x = some root_y ∧ uf'.rank = uf2.rank) ∧
      (rank_y < rank_x → pyGet uf'.parent root_y = some root_x ∧ uf'.rank = uf2.rank) ∧
      (rank_x = rank_y → pyGet uf'.parent root_y = some root_x ∧
        pyGet uf'.rank root_x = some (rank_x + 1)) := by
  obtain ⟨kx, hkx, hkxlt, -⟩ := pyGet_some_idx hrx
  obtain ⟨ky, hky, hkylt, -⟩ := pyGet_some_idx hry
  have hkx' : pyIdx uf2.parent.length root_x = some kx := by rw [hlen]; exact hkx
  have hky' : pyIdx uf2.parent.length root_y = some ky := by rw [hlen]; exact hky
  rcases lt_trichotomy rank_x rank_y with hlt | heq | hgt
  · have hset := pySet_of_idx (l := uf2.parent) root_y hkx'
    have hu : uf.union x y = some (UnionFind.mk (uf2.parent.set kx root_y) uf2.rank
        (uf2.component_count - 1), true) := by
      simp only [UnionFind.union, hx, hy, if_neg hne, hrx, hry, if_pos hlt, hset]
    exact ⟨_, hu, fun _ => ⟨pyGet_pySet_self hset, rfl⟩,
      fun hgt' => absurd hgt' (by omega), fun heq' => absurd heq' (by omega)⟩
  · have hset1 := pySet_of_idx (l := uf2.parent) root_x hky'
    have hset2 := pySet_of_idx (l := uf2.rank) (rank_x + 1) hkx
    have hu : uf.union x y = some (UnionFind.mk (uf2.parent.set ky root_x)
        (uf2.rank.set kx (rank_x + 1)) (uf2.component_count - 1), true) := by
      simp only [UnionFind.union, hx, hy, if_neg hne, hrx, hry,
        if_neg (show ¬ rank_x < rank_y by omega), if_neg (show ¬ rank_y < rank_x by omega),
        hset1, hset2]
    exact ⟨_, hu, fun hlt' => absurd hlt' (by omega), fun hgt' => absurd hgt' (by omega),
      fun _ => ⟨pyGet_pySet_self hset1, pyGet_pySet_self hset2⟩⟩
  · have hset := pySet_of_idx (l := uf2.parent) root_x hky'
    have hu : uf.union x y = some (UnionFind.mk (uf2.parent.set ky root_x) uf2.rank
        (uf2.component_count - 1), true) := by
      simp only [UnionFind.union, hx, hy, if_neg hne, hrx, hry,
        if_neg (show ¬ rank_x < rank_y by omega), if_pos hgt, hset]
    exact ⟨_, hu, fun hlt' => absurd hlt' (by omega), fun _ => ⟨pyGet_pySet_self hset, rfl⟩,
      fun heq' => absurd heq' (by omega)⟩

/-- Counterexample to C1 as stated: starting from two fresh singletons the
ranks tie, and the chosen new root after `union(0, 1)` is `0` — the root of
`x`'s tree — not the root of `y`'s tree (`1`): the representative of `1`
changes from `1` to `0`. -/
theorem union_tie_root_counterexample :
    (((UnionFind.init 2).union 0 1).bind (fun q => (q.1.find 1).map Prod.snd) = some 0) ∧
    (((UnionFind.init 2).find 1).map Prod.snd = some 1) ∧
    some (0 : Int) ≠ some (1 : Int) := by
  refine ⟨by decide, by decide, by decide⟩

/-- Witness for the amended C1 at the concrete tie `union(0, 1)` on a fresh
structure of size 2. -/
theorem union_by_rank_direction_witness :
    pyGet (UnionFind.mk [0, 0] [1, 0] 1).parent 1 = some 0 ∧
    pyGet (UnionFind.mk [0, 0] [1, 0] 1).rank 0 = some 1 := by
  obtain ⟨uf', hu, -, -, htie⟩ :=
    union_by_rank_direction (UnionFind.init 2) (UnionFind.init 2) (UnionFind.init 2)
      0 1 0 1 0 0 rfl rfl (by decide) rfl rfl rfl
  have h2 : (UnionFind.init 2).union 0 1 = some (UnionFind.mk [0, 0] [1, 0] 1, true) := by decide
  rw [hu] at h2
  obtain ⟨h3, h4⟩ := htie rfl
  have h5 : uf' = UnionFind.mk [0, 0] [1, 0] 1 := by
    have := Option.some.inj h2
    exact congrArg Prod.fst this
  rw [h5] at h3 h4
  exact ⟨h3, h4⟩

/-! ### Component-count bookkeeping (C3) -/

theorem findAux_count : ∀ (fuel : Nat) (uf : UnionFind) (x : Int) (uf' : UnionFind) (r : Int),
    findAux fuel uf x = some (uf', r) →
    uf'.component_count = uf.component_count ∧ uf'.rank = uf.rank ∧
      uf'.parent.length = uf.parent.length
  | 0, _, _, _, _, h => by cases h
  | fuel + 1, uf, x, uf', r, h => by
    rw [findAux] at h
    split at h
    · cases h
    · split at h
      · cases h
        exact ⟨rfl, rfl, rfl⟩
      · split at h
        · cases h
        · rename_i o1 uf1 r1 hrec
          split at h
          · cases h
          · rename_i par hset
            cases h
            obtain ⟨h1, h2, h3⟩ := findAux_count fuel uf _ _ _ hrec
            exact ⟨h1, h2, (pySet_length hset).trans h3⟩

theorem find_count {uf uf' : UnionFind} {x r : Int} (h : uf.find x = some (uf', r)) :
    uf'.component_count = uf.component_count ∧ uf'.rank = uf.rank ∧
      uf'.parent.length = uf.parent.length :=
  findAux_count _ uf x uf' r h

theorem union_count {uf uf' : UnionFind} {x y : Int} {b : Bool}
    (h : uf.union x y = some (uf', b)) :
    uf'.component_count = uf.component_count - (if b then 1 else 0) := by
  unfold UnionFind.union at h
  split at h
  · cases h
  · rename_i uf1 root_x hx
    split at h
    · cases h
    · rename_i uf2 root_y hy
      have hc : uf2.component_count = uf.component_count :=
        (find_count hy).1.trans (find_count hx).1
      split at h
      · cases h
        simpa using hc
      · split at h
        · split at h
          · split at h
            · cases h
            · cases h
              simp [hc]
          · split at h
            · split at h
              · cases h
              · cases h
                simp [hc]
            · split at h
              · cases h
                simp [hc]
              · cases h
        · cases h

theorem applyOp_count {uf uf1 : UnionFind} {op : Op} {b : Bool}
    (h : applyOp uf op = some (uf1, b)) :
    uf1.component_count = uf.component_count - (if b then 1 else 0) := by
  cases op with
  | find x =>
    simp only [applyOp] at h
    cases hf : uf.find x with
    | none => rw [hf] at h; cases h
    | some q =>
      obtain ⟨u1, r1⟩ := q
      rw [hf] at h
      cases h
      simpa using (find_count hf).1
  | union x y => exact union_count h

theorem applyOps_count : ∀ (ops : List Op) (uf uf' : UnionFind) (k : Nat),
    applyOps uf ops = some (uf', k) →
    uf'.component_count = uf.component_count - (k : Int)
  | [], uf, uf', k, h => by
    cases h
    simp
  | op :: rest, uf, uf', k, h => by
    rw [applyOps] at h
    split at h
    · cases h
    · rename_i uf1 b hop
      cases hrest : applyOps uf1 rest with
      | none => rw [hrest] at h; cases h
      | some q2 =>
        obtain ⟨uf2, k2⟩ := q2
        rw [hrest] at h
        cases h
        have h1 := applyOp_count hop
        have h2 := applyOps_count rest uf1 uf2 k2 hrest
        cases b <;> simp at h1 ⊢ <;> omega

theorem applyOps_append : ∀ (l1 l2 : List Op) (uf uf' : UnionFind) (k : Nat),
    applyOps uf (l1 ++ l2) = some (uf', k) →
    ∃ uf1 k1 k2, applyOps uf l1 = some (uf1, k1) ∧ applyOps uf1 l2 = some (uf', k2) ∧
      k = k1 + k2
  | [], l2, uf, uf', k, h => ⟨uf, 0, k, rfl, h, (Nat.zero_add k).symm⟩
  | op :: rest, l2, uf, uf', k, h => by
    rw [List.cons_append, applyOps] at h
    split at h
    · cases h
    · rename_i uf1 b hop
      cases hrest : applyOps uf1 (rest ++ l2) with
      | none => rw [hrest] at h; cases h
      | some q2 =>
        obtain ⟨uf2, k2⟩ := q2
        rw [hrest] at h
        cases h
        obtain ⟨ufm, ka, kb, ha, hb, hk⟩ := applyOps_append rest l2 uf1 uf2 k2 hrest
        refine ⟨ufm, (if b then 1 else 0) + ka, kb, ?_, hb, by omega⟩
        simp [applyOps, hop, ha]

/-- C3: starting from `n` singletons, after any sequence of operations in
which exactly `k` union calls returned `True`, the live component count is
exactly `n - k`; the count starts at `n` and is non-increasing along every
prefix of the run. -/
theorem component_count_invariant (n : Nat) (ops : List Op) (uf' : UnionFind) (k : Nat)
    (h : applyOps (UnionFind.init n) ops = some (uf', k)) :
    uf'.component_count = (n : Int) - (k : Int) ∧
    (UnionFind.init n).component_count = (n : Int) ∧
    (∀ l1 l2 uf1 k1, ops = l1 ++ l2 → applyOps (UnionFind.init n) l1 = some (uf1, k1) →
      uf'.component_count ≤ uf1.component_count ∧ uf1.component_count ≤ (n : Int)) := by
  have hmain := applyOps_count ops (UnionFind.init n) uf' k h
  have hinit : (UnionFind.init n).component_count = (n : Int) := rfl
  refine ⟨by rw [hmain, hinit], hinit, fun l1 l2 uf1 k1 hsplit h1 => ?_⟩
  subst hsplit
  obtain ⟨ufm, ka, kb, ha, hb, hk⟩ := applyOps_append l1 l2 (UnionFind.init n) uf' k h
  have : ufm = uf1 ∧ ka = k1 := by
    have := ha.symm.trans h1
    exact ⟨congrArg Prod.fst (Option.some.inj this), congrArg Prod.snd (Option.some.inj this)⟩
  obtain ⟨rfl, rfl⟩ := this
  have h2 := applyOps_count l2 ufm uf' kb hb
  have h3 := applyOps_count l1 (UnionFind.init n) ufm ka ha
  rw [hinit] at h3
  constructor <;> omega

/-- Witness for C3: three operations on three singletons, one `True` union. -/
theorem component_count_invariant_witness :
    (UnionFind.mk [0, 0, 2] [1, 0, 0] 2).component_count = 2 :=
  ((component_count_invariant 3 [Op.union 0 1, Op.find 2, Op.union 1 0]
    (UnionFind.mk [0, 0, 2] [1, 0, 0] 2) 1 (by decide)).1).trans (by norm_num)

/-! ### C2: the part-2 scan -/

theorem unifies_iff {uf uf1 : UnionFind} {p : DistancePair} {b : Bool}
    (h : uf.union p.2.1 p.2.2 = some (uf1, b)) :
    unifies uf p ↔ (b = true ∧ uf1.component_count = 1) := by
  unfold unifies
  rw [h]
  simp [Prod.ext_iff]

theorem not_unifies_of_none {uf : UnionFind} {p : DistancePair}
    (h : uf.union p.2.1 p.2.2 = none) : ¬ unifies uf p := by
  unfold unifies
  rw [h]
  simp

theorem ufAfter_cons_none {uf : UnionFind} {p : DistancePair} {rest : List DistancePair}
    (h : uf.union p.2.1 p.2.2 = none) : ufAfter uf (p :: rest) = none := by
  rw [ufAfter, h]

theorem ufAfter_cons_some {uf uf1 : UnionFind} {p : DistancePair} {b : Bool}
    {rest : List DistancePair} (h : uf.union p.2.1 p.2.2 = some (uf1, b)) :
    ufAfter uf (p :: rest) = ufAfter uf1 rest := by
  rw [ufAfter, h]

theorem part2Loop_cons_some {uf uf1 : UnionFind} {p : DistancePair} {b : Bool}
    (coords : List Coordinate) (rest : List DistancePair)
    (h : uf.union p.2.1 p.2.2 = some (uf1, b)) :
    part2Loop uf coords (p :: rest) =
      if b = true ∧ uf1.component_count = 1 then
        match pyGet coords p.2.1, pyGet coords p.2.2 with
        | some c1, some c2 => Except.ok (c1.1 * c2.1)
        | _, _ => Except.error "IndexError"
      else part2Loop uf1 coords rest := by
  rw [part2Loop, h]

theorem part2Loop_error (coords : List Coordinate) :
    ∀ (ps : List DistancePair) (uf : UnionFind), (ufAfter uf ps).isSome = true →
      (∀ pre p post u, ps = pre ++ p :: post → ufAfter uf pre = some u → ¬ unifies u p) →
      part2Loop uf coords ps
        = Except.error "Failed to unify all coordinates into single component"
  | [], _, _, _ => rfl
  | p :: rest, uf, hsome, hstop => by
    cases hu : uf.union p.2.1 p.2.2 with
    | none => rw [ufAfter_cons_none hu] at hsome; cases hsome
    | some q =>
      obtain ⟨uf1, b⟩ := q
      rw [ufAfter_cons_some hu] at hsome
      have hnostop : ¬ unifies uf p := hstop [] p rest uf rfl rfl
      rw [unifies_iff hu] at hnostop
      rw [part2Loop_cons_some coords rest hu, if_neg hnostop]
      refine part2Loop_error coords rest uf1 hsome ?_
      intro pre q post u hpre hafter
      refine hstop (p :: pre) q post u (by rw [hpre]; rfl) ?_
      rw [ufAfter_cons_some hu]
      exact hafter

theorem part2Loop_ok (coords : List Coordinate) :
    ∀ (pre : List DistancePair) (uf u : UnionFind) (p : DistancePair)
      (post : List DistancePair) (c1 c2 : Coordinate),
      ufAfter uf pre = some u →
      (∀ pre' q post' w, pre = pre' ++ q :: post' → ufAfter uf pre' = some w → ¬ unifies w q) →
      unifies u p → pyGet coords p.2.1 = some c1 → pyGet coords p.2.2 = some c2 →
      part2Loop uf coords (pre ++ p :: post) = Except.ok (c1.1 * c2.1)
  | [], uf, u, p, post, c1, c2, hafter, _, hunif, hc1, hc2 => by
    cases hafter
    cases hu : uf.union p.2.1 p.2.2 with
    | none => exact absurd hunif (not_unifies_of_none hu)
    | some q =>
      obtain ⟨uf1, b⟩ := q
      have hb := (unifies_iff hu).mp hunif
      rw [List.nil_append, part2Loop_cons_some coords post hu, if_pos hb, hc1, hc2]
  | q :: pre', uf, u, p, post, c1, c2, hafter, hstop, hunif, hc1, hc2 => by
    cases hu : uf.union q.2.1 q.2.2 with
    | none => rw [ufAfter_cons_none hu] at hafter; cases hafter
    | some w =>
      obtain ⟨w1, b⟩ := w
      rw [ufAfter_cons_some hu] at hafter
      have hnostop : ¬ unifies uf q := hstop [] q pre' uf rfl rfl
      rw [unifies_iff hu] at hnostop
      rw [List.cons_append, part2Loop_cons_some coords (pre' ++ p :: post) hu, if_neg hnostop]
      refine part2Loop_ok coords pre' w1 u p post c1 c2 hafter ?_ hunif hc1 hc2
      intro pre'' q' post'' w' hpre hafter'
      refine hstop (q :: pre'') q' post'' w' (by rw [hpre]; rfl) ?_
      rw [ufAfter_cons_some hu]
      exact hafter'

/-- C2: characterization of `solve_part2`'s full scan.  Scanning the
(caller-sorted) pair list in order: if every prefix state fails the stop
condition (a `True`-returning union that leaves exactly one component), the
scan exhausts the list and raises the fatal `ValueError` — it never returns a
default; and if some pair is the first to satisfy the stop condition, the
scan returns the product of the two endpoint x-coordinates of that pair. -/
theorem solve_part2_scan_spec (coordinates : List Coordinate) (ps : List DistancePair) :
    ((ufAfter (UnionFind.init coordinates.length) ps).isSome = true →
      (∀ pre p post u, ps = pre ++ p :: post →
        ufAfter (UnionFind.init coordinates.length) pre = some u → ¬ unifies u p) →
      solve_part2 coordinates ps
        = Except.error "Failed to unify all coordinates into single component") ∧
    (∀ pre p post u c1 c2, ps = pre ++ p :: post →
      ufAfter (UnionFind.init coordinates.length) pre = some u →
      (∀ pre' q post' w, pre = pre' ++ q :: post' →
        ufAfter (UnionFind.init coordinates.length) pre' = some w → ¬ unifies w q) →
      unifies u p →
      pyGet coordinates p.2.1 = some c1 → pyGet coordinates p.2.2 = some c2 →
      solve_part2 coordinates ps = Except.ok (c1.1 * c2.1)) := by
  constructor
  · intro hsome hstop
    exact part2Loop_error coordinates ps (UnionFind.init coordinates.length) hsome hstop
  · intro pre p post u c1 c2 hps hafter hstop hunif hc1 hc2
    rw [hps]
    exact part2Loop_ok coordinates pre (UnionFind.init coordinates.length) u p post c1 c2
      hafter hstop hunif hc1 hc2

/-- Witness for C2: two points, one pair; its union merges everything, and
the result is the product `2 * 3` of the two x-coordinates. -/
theorem solve_part2_scan_spec_witness :
    solve_part2 [(2, 0, 0), (3, 0, 0)] [((0 : ℝ), 0, 1)] = Except.ok 6 := by
  have h := (solve_part2_scan_spec [(2, 0, 0), (3, 0, 0)] [((0 : ℝ), 0, 1)]).2
    [] ((0 : ℝ), 0, 1) [] (UnionFind.init 2) (2, 0, 0) (3, 0, 0) rfl rfl
    (by
      intro pre' q post' w hq _
      simp at hq)
    rfl rfl rfl
  exact h.trans (congrArg Except.ok (by norm_num))

/-! ### Forest theory: parent chains, roots, and path compression -/

theorem pstep_eq_get {par : List Int} {i : Nat} (hi : i < par.length) :
    pstep par i = (par.get ⟨i, hi⟩).toNat := by
  unfold pstep
  rw [List.getD_eq_get? , List.get?_eq_get hi]
  rfl

theorem pstep_lt {par : List Int} (hIR : InRange par) {i : Nat} (hi : i < par.length) :
    pstep par i < par.length := by
  rw [pstep_eq_get hi]
  obtain ⟨h0, h1⟩ := hIR _ (par.get_mem i hi)
  omega

theorem iterate_pstep_lt {par : List Int} (hIR : InRange par) {i : Nat} (hi : i < par.length) :
    ∀ k, (pstep par)^[k] i < par.length := by
  intro k
  induction k with
  | zero => simpa using hi
  | succ k ih =>
    rw [Function.iterate_succ_apply']
    exact pstep_lt hIR ih

theorem isRoot_iterate_fixed {par : List Int} {r : Nat} (h : IsRoot par r) (k : Nat) :
    (pstep par)^[k] r = r :=
  Function.iterate_fixed h k

theorem reaches_small {par : List Int} (hIR : InRange par) {i : Nat} (hi : i < par.length)
    (hR : Reaches par i) : ∃ k, k < par.length ∧ IsRoot par ((pstep par)^[k] i) := by
  classical
  have hfind := Nat.find_spec hR
  refine ⟨Nat.find hR, ?_, hfind⟩
  by_contra hge
  push_neg at hge
  have key : ∀ a b : Nat, a < b → b ≤ par.length →
      (pstep par)^[a] i = (pstep par)^[b] i → False := by
    intro a b hab hblen huv
    have hper : ∀ t, (pstep par)^[a + t] i = (pstep par)^[b + t] i := by
      intro t
      induction t with
      | zero => simpa using huv
      | succ t ih =>
        rw [show a + (t + 1) = (a + t) + 1 by omega, show b + (t + 1) = (b + t) + 1 by omega,
          Function.iterate_succ_apply', Function.iterate_succ_apply', ih]
    have ht := hper (Nat.find hR - b)
    rw [show b + (Nat.find hR - b) = Nat.find hR by omega] at ht
    have hroot2 : IsRoot par ((pstep par)^[a + (Nat.find hR - b)] i) := by
      rw [ht]
      exact hfind
    exact Nat.find_min hR (by omega) hroot2
  have hmaps : ∀ t ∈ Finset.range (par.length + 1),
      (pstep par)^[t] i ∈ Finset.range par.length := by
    intro t _
    exact Finset.mem_range.mpr (iterate_pstep_lt hIR hi t)
  obtain ⟨a, ha, b, hb, hab, huv⟩ :=
    Finset.exists_ne_map_eq_of_card_lt_of_maps_to (by simp) hmaps
  rcases Nat.lt_or_ge a b with hlt | hge2
  · exact key a b hlt (by have := Finset.mem_range.mp hb; omega) huv
  · exact key b a (by omega) (by have := Finset.mem_range.mp ha; omega) huv.symm

theorem rootOf_eq_of_iterate {par : List Int} {i k : Nat} (hk : k ≤ par.length)
    (hroot : IsRoot par ((pstep par)^[k] i)) : rootOf par i = (pstep par)^[k] i := by
  unfold rootOf
  rw [show par.length = (par.length - k) + k by omega, Function.iterate_add_apply]
  exact isRoot_iterate_fixed hroot _

theorem rootOf_isRoot {par : List Int} (hIR : InRange par) {i : Nat} (hi : i < par.length)
    (hR : Reaches par i) : IsRoot par (rootOf par i) := by
  obtain ⟨k, hk, hroot⟩ := reaches_small hIR hi hR
  rw [rootOf_eq_of_iterate (le_of_lt hk) hroot]
  exact hroot

theorem rootOf_of_isRoot {par : List Int} {r : Nat} (h : IsRoot par r) : rootOf par r = r :=
  isRoot_iterate_fixed h _

theorem rootOf_lt {par : List Int} (hIR : InRange par) {i : Nat} (hi : i < par.length) :
    rootOf par i < par.length :=
  iterate_pstep_lt hIR hi _

theorem rootOf_pstep {par : List Int} (hIR : InRange par) {i : Nat} (hi : i < par.length)
    (hR : Reaches par i) : rootOf par (pstep par i) = rootOf par i := by
  unfold rootOf
  rw [← Function.iterate_succ_apply, Function.iterate_succ_apply']
  exact rootOf_isRoot hIR hi hR

theorem reaches_pstep {par : List Int} {i : Nat} (hR : Reaches par i) :
    Reaches par (pstep par i) := by
  obtain ⟨k, hk⟩ := hR
  cases k with
  | zero =>
    refine ⟨0, ?_⟩
    simp only [Function.iterate_zero, id] at hk ⊢
    rw [hk]
    exact hk
  | succ k =>
    rw [Function.iterate_succ_apply] at hk
    exact ⟨k, hk⟩

theorem isRoot_of_rootOf_eq {par : List Int} (hIR : InRange par) {j : Nat}
    (hj : j < par.length) (hR : Reaches par j) (h : rootOf par j = j) : IsRoot par j := by
  have := rootOf_isRoot hIR hj hR
  rw [h] at this
  exact this

theorem chain_ind {par : List Int} (P : Nat → Prop)
    (hroot : ∀ r, r < par.length → IsRoot par r → P r)
    (hstep : ∀ j, j < par.length → ¬ IsRoot par j → P (pstep par j) → P j)
    (hIR : InRange par) :
    ∀ (k j : Nat), j < par.length → IsRoot par ((pstep par)^[k] j) → P j
  | 0, j, hj, hfix => hroot j hj hfix
  | k + 1, j, hj, hfix => by
    by_cases hr : IsRoot par j
    · exact hroot j hj hr
    · refine hstep j hj hr (chain_ind P hroot hstep hIR k (pstep par j) (pstep_lt hIR hj) ?_)
      rw [← Function.iterate_succ_apply]
      exact hfix

theorem pstep_set_ne {par : List Int} {s : Nat} {v : Int} {j : Nat} (hj : j ≠ s) :
    pstep (par.set s v) j = pstep par j := by
  unfold pstep
  rw [List.getD_eq_get? , List.getD_eq_get? , List.get?_set_ne v par (fun h => hj h.symm)]

theorem pstep_set_self {par : List Int} {s r : Nat} (hs : s < par.length) :
    pstep (par.set s (r : Int)) s = r := by
  unfold pstep
  rw [List.getD_eq_get? , List.get?_set_eq_of_lt _ hs]
  rfl

theorem InRange_set {par : List Int} (hIR : InRange par) {s r : Nat} (hr : r < par.length) :
    InRange (par.set s (r : Int)) := by
  intro p hp
  rw [List.length_set]
  rcases List.mem_or_eq_of_mem_set hp with h | rfl
  · exact hIR p h
  · constructor
    · exact Int.natCast_nonneg r
    · exact_mod_cast hr

theorem compress_preserves {par : List Int} (hIR : InRange par) (hF : Forest par) {s r : Nat}
    (hs : s < par.length) (hr : r = rootOf par s) :
    InRange (par.set s (r : Int)) ∧
    (∀ j, j < par.length → Reaches (par.set s (r : Int)) j) ∧
    (∀ j, j < par.length → rootOf (par.set s (r : Int)) j = rootOf par j) := by
  have hrlt : r < par.length := hr ▸ rootOf_lt hIR hs
  have hIR' : InRange (par.set s (r : Int)) := InRange_set hIR hrlt
  have hlen' : (par.set s (r : Int)).length = par.length := by simp
  have hrroot : IsRoot par r := hr ▸ rootOf_isRoot hIR hs (hF s hs)
  have hrroot' : IsRoot (par.set s (r : Int)) r := by
    by_cases hrs : r = s
    · unfold IsRoot
      rw [hrs, pstep_set_self hs]
    · unfold IsRoot
      rw [pstep_set_ne hrs]
      exact hrroot
  have key : ∀ j, j < par.length → Reaches (par.set s (r : Int)) j ∧
      rootOf (par.set s (r : Int)) j = rootOf par j := by
    intro j hj
    obtain ⟨k, hk⟩ := hF j hj
    refine chain_ind (fun j => Reaches (par.set s (r : Int)) j ∧
      rootOf (par.set s (r : Int)) j = rootOf par j) ?_ ?_ hIR k j hj hk
    · intro r0 hr0 hroot0
      have hroot0' : IsRoot (par.set s (r : Int)) r0 := by
        by_cases hr0s : r0 = s
        · have hrr0 : r = r0 := by
            rw [hr, hr0s, rootOf_of_isRoot (hr0s ▸ hroot0)]
          rw [← hrr0]
          exact hrroot'
        · unfold IsRoot
          rw [pstep_set_ne hr0s]
          exact hroot0
      exact ⟨⟨0, by simpa using hroot0'⟩,
        by rw [rootOf_of_isRoot hroot0', rootOf_of_isRoot hroot0]⟩
    · intro j hj hnroot hih
      obtain ⟨ihr, ihroot⟩ := hih
      by_cases hjs : j = s
      · subst hjs
        have hstep' : pstep (par.set j (r : Int)) j = r := pstep_set_self hs
        have hRs : Reaches (par.set j (r : Int)) j :=
          ⟨1, by rw [Function.iterate_one, hstep']; exact hrroot'⟩
        refine ⟨hRs, ?_⟩
        have h1 := rootOf_pstep hIR'
          (show j < (par.set j (r : Int)).length by rw [hlen']; exact hs) hRs
        rw [hstep'] at h1
        rw [← h1, rootOf_of_isRoot hrroot', hr]
      · have hstep' : pstep (par.set s (r : Int)) j = pstep par j := pstep_set_ne hjs
        have hRj : Reaches (par.set s (r : Int)) j := by
          obtain ⟨kp, hkp⟩ := ihr
          exact ⟨kp + 1, by rw [Function.iterate_succ_apply, hstep']; exact hkp⟩
        refine ⟨hRj, ?_⟩
        have h1 := rootOf_pstep hIR'
          (show j < (par.set s (r : Int)).length by rw [hlen']; exact hj) hRj
        rw [hstep'] at h1
        have h2 := rootOf_pstep hIR hj (hF j hj)
        rw [← h1, ihroot, h2]
  exact ⟨hIR', fun j hj => (key j hj).1, fun j hj => (key j hj).2⟩

theorem attach_preserves {par : List Int} (hIR : InRange par) (hF : Forest par) {ry rx : Nat}
    (hylt : ry < par.length) (hxlt : rx < par.length) (hrooty : IsRoot par ry)
    (hrootx : IsRoot par rx) (hne : rx ≠ ry) :
    InRange (par.set ry (rx : Int)) ∧
    (∀ j, j < par.length → Reaches (par.set ry (rx : Int)) j) ∧
    (∀ j, j < par.length → rootOf (par.set ry (rx : Int)) j =
      if rootOf par j = ry then rx else rootOf par j) := by
  have hIR' : InRange (par.set ry (rx : Int)) := InRange_set hIR hxlt
  have hlen' : (par.set ry (rx : Int)).length = par.length := by simp
  have hrootx' : IsRoot (par.set ry (rx : Int)) rx := by
    unfold IsRoot
    rw [pstep_set_ne hne]
    exact hrootx
  have key : ∀ j, j < par.length → Reaches (par.set ry (rx : Int)) j ∧
      rootOf (par.set ry (rx : Int)) j = if rootOf par j = ry then rx else rootOf par j := by
    intro j hj
    obtain ⟨k, hk⟩ := hF j hj
    refine chain_ind (fun j => Reaches (par.set ry (rx : Int)) j ∧
      rootOf (par.set ry (rx : Int)) j =
        if rootOf par j = ry then rx else rootOf par j) ?_ ?_ hIR k j hj hk
    · intro r0 hr0 hroot0
      by_cases hr0y : r0 = ry
      · subst hr0y
        have hstep' : pstep (par.set r0 (rx : Int)) r0 = rx := pstep_set_self hylt
        have hR' : Reaches (par.set r0 (rx : Int)) r0 :=
          ⟨1, by rw [Function.iterate_one, hstep']; exact hrootx'⟩
        refine ⟨hR', ?_⟩
        have h1 := rootOf_pstep hIR'
          (show r0 < (par.set r0 (rx : Int)).length by rw [hlen']; exact hylt) hR'
        rw [hstep', rootOf_of_isRoot hrootx'] at h1
        rw [← h1, rootOf_of_isRoot hroot0, if_pos rfl]
      · have hroot0' : IsRoot (par.set ry (rx : Int)) r0 := by
          unfold IsRoot
          rw [pstep_set_ne hr0y]
          exact hroot0
        refine ⟨⟨0, by simpa using hroot0'⟩, ?_⟩
        rw [rootOf_of_isRoot hroot0', rootOf_of_isRoot hroot0, if_neg hr0y]
    · intro j hj hnroot hih
      obtain ⟨ihr, ihroot⟩ := hih
      have hjy : j ≠ ry := fun he => hnroot (he ▸ hrooty)
      have hstep' : pstep (par.set ry (rx : Int)) j = pstep par j := pstep_set_ne hjy
      have hRj : Reaches (par.set ry (rx : Int)) j := by
        obtain ⟨kp, hkp⟩ := ihr
        exact ⟨kp + 1, by rw [Function.iterate_succ_apply, hstep']; exact hkp⟩
      refine ⟨hRj, ?_⟩
      have h1 := rootOf_pstep hIR'
        (show j < (par.set ry (rx : Int)).length by rw [hlen']; exact hj) hRj
      rw [hstep'] at h1
      have h2 := rootOf_pstep hIR hj (hF j hj)
      rw [← h1, ihroot, h2]
  exact ⟨hIR', fun j hj => (key j hj).1, fun j hj => (key j hj).2⟩

/-! ### Properties of `find` on well-formed states -/

theorem pyIdx_nat {n j : Nat} (hj : j < n) : pyIdx n (j : Int) = some j := by
  rw [pyIdx_nonneg (Int.natCast_nonneg j) (by exact_mod_cast hj)]
  simp

theorem pyGet_nat {α : Type _} {l : List α} {j : Nat} (hj : j < l.length) :
    pyGet l (j : Int) = some (l.get ⟨j, hj⟩) := by
  unfold pyGet
  rw [pyIdx_nat hj]
  simp [List.get?_eq_get hj]

theorem pyIdx_nonneg_inv {n : Nat} {x : Int} {k : Nat} (hx : 0 ≤ x)
    (h : pyIdx n x = some k) : k = x.toNat ∧ x < (n : Int) := by
  unfold pyIdx at h
  split at h
  · rename_i hc
    cases h
    exact ⟨rfl, hc.2⟩
  · split at h
    · rename_i hc
      omega
    · cases h

theorem findAux_root {fuel : Nat} {uf : UnionFind} {x p : Int}
    (h : pyGet uf.parent x = some p) (hpx : p = x) :
    findAux (fuel + 1) uf x = some (uf, p) := by
  simp only [findAux, h, if_pos hpx]

theorem findAux_rec {fuel : Nat} {uf uf1 : UnionFind} {x p r1 : Int} {par2 : List Int}
    (h : pyGet uf.parent x = some p) (hpx : ¬ p = x)
    (hrec : findAux fuel uf p = some (uf1, r1)) (hset : pySet uf1.parent x r1 = some par2) :
    findAux (fuel + 1) uf x = some ({ uf1 with parent := par2 }, r1) := by
  simp only [findAux, h, if_neg hpx, hrec, hset]

theorem findAux_dom : ∀ (fuel : Nat) (uf : UnionFind) (j : Nat),
    InRange uf.parent → j < uf.parent.length →
    (∃ k, k < fuel ∧ IsRoot uf.parent ((pstep uf.parent)^[k] j)) →
    ∃ uf' r, findAux fuel uf (j : Int) = some (uf', r)
  | 0, _, _, _, _, hex => absurd hex.choose_spec.1 (Nat.not_lt_zero _)
  | fuel + 1, uf, j, hIR, hj, hex => by
    have hget := pyGet_nat (l := uf.parent) hj
    set p := uf.parent.get ⟨j, hj⟩ with hpdef
    have hp0 : 0 ≤ p := (hIR p (uf.parent.get_mem j hj)).1
    have hpn : p = ((pstep uf.parent j : Nat) : Int) := by
      rw [pstep_eq_get hj, ← hpdef]
      exact (Int.toNat_of_nonneg hp0).symm
    by_cases hpj : p = (j : Int)
    · exact ⟨uf, p, findAux_root hget hpj⟩
    · obtain ⟨k, hk, hfix⟩ := hex
      have hk0 : k ≠ 0 := by
        intro h0
        subst h0
        apply hpj
        have hroot : pstep uf.parent j = j := by simpa using hfix
        rw [hpn, hroot]
      have hex' : ∃ k', k' < fuel ∧
          IsRoot uf.parent ((pstep uf.parent)^[k'] (pstep uf.parent j)) := by
        refine ⟨k - 1, by omega, ?_⟩
        have h2 : (pstep uf.parent)^[k - 1] (pstep uf.parent j) = (pstep uf.parent)^[k] j := by
          rw [← Function.iterate_succ_apply]
          congr 1
          omega
        rw [h2]
        exact hfix
      obtain ⟨uf1, r1, hrec⟩ :=
        findAux_dom fuel uf (pstep uf.parent j) hIR (pstep_lt hIR hj) hex'
      rw [← hpn] at hrec
      have hlen1 : uf1.parent.length = uf.parent.length := (findAux_count fuel uf p uf1 r1 hrec).2.2
      have hidx : pyIdx uf1.parent.length (j : Int) = some j := by
        rw [hlen1]
        exact pyIdx_nat hj
      exact ⟨_, r1, findAux_rec hget hpj hrec (pySet_of_idx r1 hidx)⟩

theorem findAux_preserves : ∀ (fuel : Nat) (uf : UnionFind) (x : Int) (uf' : UnionFind) (r : Int),
    findAux fuel uf x = some (uf', r) → InRange uf.parent → Forest uf.parent →
    InRange uf'.parent ∧ Forest uf'.parent ∧ uf'.parent.length = uf.parent.length ∧
    (∀ m, m < uf.parent.length → rootOf uf'.parent m = rootOf uf.parent m) ∧
    0 ≤ r ∧ r < (uf.parent.length : Int) ∧
    (∀ k1, pyIdx uf.parent.length x = some k1 → r.toNat = rootOf uf.parent k1) ∧
    (pyIdx uf.parent.length x).isSome = true
  | 0, _, _, _, _, h, _, _ => by cases h
  | fuel + 1, uf, x, uf', r, h, hIR, hF => by
    rw [findAux] at h
    split at h
    · cases h
    · rename_i p heq
      obtain ⟨k1, hk1, hk1lt, hget⟩ := pyGet_some_idx heq
      have hpmem : p ∈ uf.parent := List.get?_mem hget
      obtain ⟨hp0, hplt⟩ := hIR p hpmem
      have hpstep : pstep uf.parent k1 = p.toNat := by
        unfold pstep
        rw [List.getD_eq_get? , hget]
        rfl
      split at h
      · rename_i hpx
        cases h
        have hx0 : 0 ≤ x := hpx ▸ hp0
        refine ⟨hIR, hF, rfl, fun m _ => rfl, hp0, hplt, ?_, by rw [hk1]; rfl⟩
        intro k1' hk1'
        have hkk : k1' = k1 := by
          rw [hk1'] at hk1
          exact Option.some.inj hk1
        subst hkk
        have hk1x : k1' = x.toNat := (pyIdx_nonneg_inv hx0 hk1).1
        have hroot : IsRoot uf.parent k1' := by
          unfold IsRoot
          rw [hpstep, hpx, hk1x]
        rw [rootOf_of_isRoot hroot, hk1x, hpx]
      · rename_i hpx
        split at h
        · cases h
        · rename_i o1 uf1 r1 hrec
          split at h
          · cases h
          · rename_i o2 par2 hset
            have hpair := Option.some.inj h
            have huf' : uf' = { uf1 with parent := par2 } := (congrArg Prod.fst hpair).symm
            have hrr : r = r1 := (congrArg Prod.snd hpair).symm
            subst huf'
            subst hrr
            obtain ⟨hIR1, hF1, hlen1, hpres1, hr10, hr1lt, hr1char, -⟩ :=
              findAux_preserves fuel uf p uf1 r hrec hIR hF
            obtain ⟨k2, hk2, hk2lt, hpar2⟩ := pySet_some hset
            have hkk : k2 = k1 := by
              rw [hlen1] at hk2
              rw [hk2] at hk1
              exact Option.some.inj hk1
            rw [hkk] at hpar2 hk2lt
            have hchar : r.toNat = rootOf uf.parent p.toNat :=
              hr1char p.toNat (pyIdx_nonneg hp0 hplt)
            have hrootk1 : rootOf uf.parent k1 = rootOf uf.parent p.toNat := by
              have h3 := rootOf_pstep hIR hk1lt (hF k1 hk1lt)
              rw [hpstep] at h3
              exact h3.symm
            have hcomp : r.toNat = rootOf uf1.parent k1 := by
              rw [hpres1 k1 hk1lt, hrootk1]
              exact hchar
            obtain ⟨hIR2, hreach2, hroot2⟩ :=
              compress_preserves hIR1 hF1 hk2lt hcomp
            have hcast : ((r.toNat : Nat) : Int) = r := Int.toNat_of_nonneg hr10
            have hpar2' : par2 = uf1.parent.set k1 ((r.toNat : Nat) : Int) := by
              rw [hcast]
              exact hpar2
            have hlen2 : par2.length = uf.parent.length := by
              rw [hpar2]
              simp [hlen1]
            refine ⟨?_, ?_, hlen2, ?_, hr10, hr1lt, ?_, by rw [hk1]; rfl⟩
            · show InRange par2
              rw [hpar2']
              exact hIR2
            · show Forest par2
              intro i hi
              rw [hpar2']
              apply hreach2
              rw [hlen2] at hi
              rw [hlen1]
              exact hi
            · intro m hm
              show rootOf par2 m = rootOf uf.parent m
              rw [hpar2', hroot2 m (by rw [hlen1]; exact hm), hpres1 m hm]
            · intro k1' hk1'
              have hkk2 : k1' = k1 := by
                rw [hk1'] at hk1
                exact Option.some.inj hk1
              subst hkk2
              rw [hchar, hrootk1]

theorem find_preserves {uf uf' : UnionFind} {x r : Int} (h : uf.find x = some (uf', r))
    (hWF : WF uf) :
    WF uf' ∧ uf'.parent.length = uf.parent.length ∧ uf'.rank = uf.rank ∧
    uf'.component_count = uf.component_count ∧
    (∀ m, m < uf.parent.length → rootOf uf'.parent m = rootOf uf.parent m) ∧
    0 ≤ r ∧ r < (uf.parent.length : Int) ∧
    (∀ k1, pyIdx uf.parent.length x = some k1 → r.toNat = rootOf uf.parent k1) ∧
    (pyIdx uf.parent.length x).isSome = true := by
  obtain ⟨hlen, hIR, hF⟩ := hWF
  obtain ⟨hIR', hF', hlen', hpres, hr0, hrlt, hchar, hidx⟩ :=
    findAux_preserves _ uf x uf' r h hIR hF
  obtain ⟨hc, hrk, -⟩ := findAux_count _ uf x uf' r h
  exact ⟨⟨by rw [hlen', hrk, ← hlen], hIR', hF'⟩, hlen', hrk, hc, hpres, hr0, hrlt, hchar, hidx⟩

theorem find_dom {uf : UnionFind} (hWF : WF uf) {j : Nat} (hj : j < uf.parent.length) :
    ∃ uf' r, uf.find (j : Int) = some (uf', r) := by
  obtain ⟨hlen, hIR, hF⟩ := hWF
  obtain ⟨k, hk, hfix⟩ := reaches_small hIR hj (hF j hj)
  exact findAux_dom (uf.parent.length + 1) uf j hIR hj ⟨k, by omega, hfix⟩

theorem find_valid {uf : UnionFind} (hWF : WF uf) {j : Nat} (hj : j < uf.parent.length) :
    ∃ uf', uf.find (j : Int) = some (uf', ((rootOf uf.parent j : Nat) : Int)) ∧ WF uf' ∧
      uf'.parent.length = uf.parent.length ∧ uf'.rank = uf.rank ∧
      uf'.component_count = uf.component_count ∧
      (∀ m, m < uf.parent.length → rootOf uf'.parent m = rootOf uf.parent m) := by
  obtain ⟨uf', r, h⟩ := find_dom hWF hj
  obtain ⟨hWF', hlen', hrk, hc, hpres, hr0, hrlt, hchar, -⟩ := find_preserves h hWF
  have hr : r = ((rootOf uf.parent j : Nat) : Int) := by
    have h1 := hchar j (pyIdx_nat hj)
    rw [← h1, Int.toNat_of_nonneg hr0]
  rw [hr] at h
  exact ⟨uf', h, hWF', hlen', hrk, hc, hpres⟩

theorem init_parent_length (n : Nat) : (UnionFind.init n).parent.length = n := by
  show ((List.range n).map Int.ofNat).length = n
  rw [List.length_map, List.length_range]

theorem WF_init (n : Nat) : WF (UnionFind.init n) := by
  refine ⟨?_, ?_, ?_⟩
  · show ((List.range n).map Int.ofNat).length = (List.replicate n (0 : Int)).length
    rw [List.length_map, List.length_range, List.length_replicate]
  · intro p hp
    rw [init_parent_length]
    have hp' : p ∈ (List.range n).map Int.ofNat := hp
    rw [List.mem_map] at hp'
    obtain ⟨i, hi, rfl⟩ := hp'
    rw [List.mem_range] at hi
    constructor
    · exact Int.natCast_nonneg i
    · show (i : Int) < (n : Int)
      exact_mod_cast hi
  · intro i hi
    rw [init_parent_length] at hi
    refine ⟨0, ?_⟩
    simp only [Function.iterate_zero, id_eq]
    unfold IsRoot pstep
    rw [List.getD_eq_get? ]
    show ((((List.range n).map Int.ofNat).get? i).getD 0).toNat = i
    rw [List.get?_map, List.get?_range hi]
    rfl

theorem union_result_facts {uf uf2 : UnionFind} {par3 : List Int}
    (hlen2 : uf2.parent.length = uf.parent.length)
    (hIR2 : InRange uf2.parent) (hF2 : Forest uf2.parent)
    (hpres2 : ∀ m, m < uf.parent.length → rootOf uf2.parent m = rootOf uf.parent m)
    {rlose rwin : Nat}
    (hwin : rwin < uf.parent.length) (hlose : rlose < uf.parent.length)
    (hrootw : IsRoot uf2.parent rwin) (hrootl : IsRoot uf2.parent rlose)
    (hne : rwin ≠ rlose)
    (hpar3 : par3 = uf2.parent.set rlose ((rwin : Nat) : Int)) :
    InRange par3 ∧ (∀ i, i < par3.length → Reaches par3 i) ∧
    par3.length = uf.parent.length ∧
    (∀ m, m < uf.parent.length → rootOf par3 m =
      if rootOf uf.parent m = rlose then rwin else rootOf uf.parent m) := by
  subst hpar3
  obtain ⟨hIR3, hreach3, hroot3⟩ := attach_preserves hIR2 hF2 (by rw [hlen2]; exact hlose)
    (by rw [hlen2]; exact hwin) hrootl hrootw hne
  refine ⟨hIR3, ?_, by simp [hlen2], ?_⟩
  · intro i hi
    rw [List.length_set] at hi
    exact hreach3 i hi
  · intro m hm
    rw [hroot3 m (by rw [hlen2]; exact hm), hpres2 m hm]

theorem union_preserves {uf uf' : UnionFind} {x y : Int} {b : Bool}
    (h : uf.union x y = some (uf', b)) (hWF : WF uf) :
    WF uf' ∧ uf'.parent.length = uf.parent.length ∧
    (b = false →
      (∀ m, m < uf.parent.length → rootOf uf'.parent m = rootOf uf.parent m) ∧
      (∀ kx ky, pyIdx uf.parent.length x = some kx → pyIdx uf.parent.length y = some ky →
        rootOf uf.parent kx = rootOf uf.parent ky)) ∧
    (b = true → ∃ rwin rlose, rwin < uf.parent.length ∧ rlose < uf.parent.length ∧
      rwin ≠ rlose ∧
      (∀ m, m < uf.parent.length → rootOf uf'.parent m =
        if rootOf uf.parent m = rlose then rwin else rootOf uf.parent m) ∧
      (∀ kx ky, pyIdx uf.parent.length x = some kx → pyIdx uf.parent.length y = some ky →
        (rootOf uf.parent kx = rwin ∧ rootOf uf.parent ky = rlose) ∨
        (rootOf uf.parent kx = rlose ∧ rootOf uf.parent ky = rwin))) := by
  obtain ⟨hlenuf, hIRuf, hFuf⟩ := hWF
  unfold UnionFind.union at h
  split at h
  · cases h
  · rename_i uf1 root_x hx
    split at h
    · cases h
    · rename_i uf2 root_y hy
      obtain ⟨hWF1, hlen1, hrk1, hc1, hpres1, hrx0, hrxlt, hrxchar, hxidx⟩ :=
        find_preserves hx ⟨hlenuf, hIRuf, hFuf⟩
      obtain ⟨hWF2, hlen2', hrk2, hc2, hpres2', hry0, hrylt', hrychar', hyidx'⟩ :=
        find_preserves hy hWF1
      have hlen2 : uf2.parent.length = uf.parent.length := hlen2'.trans hlen1
      have hpres2 : ∀ m, m < uf.parent.length → rootOf uf2.parent m = rootOf uf.parent m := by
        intro m hm
        rw [hpres2' m (by rw [hlen1]; exact hm), hpres1 m hm]
      have hrychar : ∀ k, pyIdx uf.parent.length y = some k →
          root_y.toNat = rootOf uf.parent k := by
        intro k hk
        have h1 := hrychar' k (by rw [hlen1]; exact hk)
        rw [h1]
        exact hpres1 k (pyIdx_some_lt hk)
      have hyidx : (pyIdx uf.parent.length y).isSome = true := by
        rw [← hlen1]
        exact hyidx'
      obtain ⟨kx, hkx⟩ := Option.isSome_iff_exists.mp hxidx
      obtain ⟨ky, hky⟩ := Option.isSome_iff_exists.mp hyidx
      have hkxlt := pyIdx_some_lt hkx
      have hkylt := pyIdx_some_lt hky
      have hrxkx : root_x.toNat = rootOf uf.parent kx := hrxchar kx hkx
      have hryky : root_y.toNat = rootOf uf.parent ky := hrychar ky hky
      obtain ⟨hl2, hIR2, hF2⟩ := hWF2
      have hrxroot_uf : IsRoot uf.parent root_x.toNat := by
        rw [hrxkx]
        exact rootOf_isRoot hIRuf hkxlt (hFuf kx hkxlt)
      have hryroot_uf : IsRoot uf.parent root_y.toNat := by
        rw [hryky]
        exact rootOf_isRoot hIRuf hkylt (hFuf ky hkylt)
      have hrxltN : root_x.toNat < uf.parent.length := by
        rw [hrxkx]
        exact rootOf_lt hIRuf hkxlt
      have hryltN : root_y.toNat < uf.parent.length := by
        rw [hryky]
        exact rootOf_lt hIRuf hkylt
      have hrxroot2 : IsRoot uf2.parent root_x.toNat := by
        refine isRoot_of_rootOf_eq hIR2 (by rw [hlen2]; exact hrxltN)
          (hF2 _ (by rw [hlen2]; exact hrxltN)) ?_
        rw [hpres2 _ hrxltN, rootOf_of_isRoot hrxroot_uf]
      have hryroot2 : IsRoot uf2.parent root_y.toNat := by
        refine isRoot_of_rootOf_eq hIR2 (by rw [hlen2]; exact hryltN)
          (hF2 _ (by rw [hlen2]; exact hryltN)) ?_
        rw [hpres2 _ hryltN, rootOf_of_isRoot hryroot_uf]
      have hcastx : ((root_x.toNat : Nat) : Int) = root_x := Int.toNat_of_nonneg hrx0
      have hcasty : ((root_y.toNat : Nat) : Int) = root_y := Int.toNat_of_nonneg hry0
      split at h
      · rename_i hroots
        have hpair := Option.some.inj h
        have huf' : uf' = uf2 := (congrArg Prod.fst hpair).symm
        have hb : b = false := (congrArg Prod.snd hpair).symm
        subst huf'
        subst hb
        refine ⟨⟨hl2, hIR2, hF2⟩, hlen2, ?_, ?_⟩
        · intro _
          refine ⟨hpres2, ?_⟩
          intro kx' ky' hkx' hky'
          have e1 : kx' = kx := by
            rw [hkx'] at hkx
            exact Option.some.inj hkx
          have e2 : ky' = ky := by
            rw [hky'] at hky
            exact Option.some.inj hky
          subst e1
          subst e2
          rw [← hrxkx, ← hryky, hroots]
        · intro hb
          cases hb
      · rename_i hroots
        have hneN1 : root_y.toNat ≠ root_x.toNat := by
          intro he
          apply hroots
          rw [← hcastx, ← hcasty, he]
        have hneN2 : root_x.toNat ≠ root_y.toNat := fun he => hneN1 he.symm
        split at h
        · rename_i rank_x rank_y hrgx hrgy
          split at h
          · rename_i hrlt
            split at h
            · cases h
            · rename_i o3 par3 hset
              have hpair := Option.some.inj h
              have huf' : uf' = UnionFind.mk par3 uf2.rank (uf2.component_count - 1) :=
                (congrArg Prod.fst hpair).symm
              have hb : b = true := (congrArg Prod.snd hpair).symm
              subst huf'
              subst hb
              obtain ⟨k3, hk3, hk3lt, hpar3⟩ := pySet_some hset
              have hk3x : k3 = root_x.toNat := (pyIdx_nonneg_inv hrx0 hk3).1
              rw [hk3x] at hpar3
              rw [← hcasty] at hpar3
              obtain ⟨hIR3, hreach3, hlen3, hroot3⟩ :=
                union_result_facts hlen2 hIR2 hF2 hpres2 hryltN hrxltN hryroot2 hrxroot2
                  hneN1 hpar3
              refine ⟨⟨?_, hIR3, ?_⟩, hlen3, ?_, ?_⟩
              · show par3.length = uf2.rank.length
                rw [hlen3, ← hlen2]
                exact hl2
              · intro i hi
                exact hreach3 i hi
              · intro hb
                cases hb
              · intro _
                refine ⟨root_y.toNat, root_x.toNat, hryltN, hrxltN, hneN1, hroot3, ?_⟩
                intro kx' ky' hkx' hky'
                have e1 : kx' = kx := by
                  rw [hkx'] at hkx
                  exact Option.some.inj hkx
                have e2 : ky' = ky := by
                  rw [hky'] at hky
                  exact Option.some.inj hky
                subst e1
                subst e2
                exact Or.inr ⟨hrxkx.symm, hryky.symm⟩
          · rename_i hnlt
            split at h
            · rename_i hrgt
              split at h
              · cases h
              · rename_i o3 par3 hset
                have hpair := Option.some.inj h
                have huf' : uf' = UnionFind.mk par3 uf2.rank (uf2.component_count - 1) :=
                  (congrArg Prod.fst hpair).symm
                have hb : b = true := (congrArg Prod.snd hpair).symm
                subst huf'
                subst hb
                obtain ⟨k3, hk3, hk3lt, hpar3⟩ := pySet_some hset
                have hk3y : k3 = root_y.toNat := (pyIdx_nonneg_inv hry0 hk3).1
                rw [hk3y] at hpar3
                rw [← hcastx] at hpar3
                obtain ⟨hIR3, hreach3, hlen3, hroot3⟩ :=
                  union_result_facts hlen2 hIR2 hF2 hpres2 hrxltN hryltN hrxroot2 hryroot2
                    hneN2 hpar3
                refine ⟨⟨?_, hIR3, ?_⟩, hlen3, ?_, ?_⟩
                · show par3.length = uf2.rank.length
                  rw [hlen3, ← hlen2]
                  exact hl2
                · intro i hi
                  exact hreach3 i hi
                · intro hb
                  cases hb
                · intro _
                  refine ⟨root_x.toNat, root_y.toNat, hrxltN, hryltN, hneN2, hroot3, ?_⟩
                  intro kx' ky' hkx' hky'
                  have e1 : kx' = kx := by
                    rw [hkx'] at hkx
                    exact Option.some.inj hkx
                  have e2 : ky' = ky := by
                    rw [hky'] at hky
                    exact Option.some.inj hky
                  subst e1
                  subst e2
                  exact Or.inl ⟨hrxkx.symm, hryky.symm⟩
            · rename_i hngt
              split at h
              · rename_i o3 o4 par3 rk4 hsetp hsetr
                have hpair := Option.some.inj h
                have huf' : uf' = UnionFind.mk par3 rk4 (uf2.component_count - 1) :=
                  (congrArg Prod.fst hpair).symm
                have hb : b = true := (congrArg Prod.snd hpair).symm
                subst huf'
                subst hb
                obtain ⟨k3, hk3, hk3lt, hpar3⟩ := pySet_some hsetp
                have hk3y : k3 = root_y.toNat := (pyIdx_nonneg_inv hry0 hk3).1
                rw [hk3y] at hpar3
                rw [← hcastx] at hpar3
                obtain ⟨hIR3, hreach3, hlen3, hroot3⟩ :=
                  union_result_facts hlen2 hIR2 hF2 hpres2 hrxltN hryltN hrxroot2 hryroot2
                    hneN2 hpar3
                obtain ⟨k4, hk4, hk4lt, hrk4⟩ := pySet_some hsetr
                refine ⟨⟨?_, hIR3, ?_⟩, hlen3, ?_, ?_⟩
                · show par3.length = rk4.length
                  rw [hlen3, hrk4, List.length_set, ← hlen2]
                  exact hl2
                · intro i hi
                  exact hreach3 i hi
                · intro hb
                  cases hb
                · intro _
                  refine ⟨root_x.toNat, root_y.toNat, hrxltN, hryltN, hneN2, hroot3, ?_⟩
                  intro kx' ky' hkx' hky'
                  have e1 : kx' = kx := by
                    rw [hkx'] at hkx
                    exact Option.some.inj hkx
                  have e2 : ky' = ky := by
                    rw [hky'] at hky
                    exact Option.some.inj hky
                  subst e1
                  subst e2
                  exact Or.inl ⟨hrxkx.symm, hryky.symm⟩
              · cases h
        · cases h

theorem applyOp_WF {uf uf1 : UnionFind} {op : Op} {b : Bool}
    (h : applyOp uf op = some (uf1, b)) (hWF : WF uf) :
    WF uf1 ∧ uf1.parent.length = uf.parent.length := by
  cases op with
  | find x =>
    simp only [applyOp] at h
    cases hf : uf.find x with
    | none => rw [hf] at h; cases h
    | some q =>
      obtain ⟨u1, r1⟩ := q
      rw [hf] at h
      cases h
      obtain ⟨hWF', hlen', -⟩ := find_preserves hf hWF
      exact ⟨hWF', hlen'⟩
  | union x y =>
    obtain ⟨hWF', hlen', -⟩ := union_preserves h hWF
    exact ⟨hWF', hlen'⟩

theorem applyOps_WF : ∀ (ops : List Op) (uf uf' : UnionFind) (k : Nat),
    applyOps uf ops = some (uf', k) → WF uf →
    WF uf' ∧ uf'.parent.length = uf.parent.length
  | [], uf, _, _, h, hWF => by
    cases h
    exact ⟨hWF, rfl⟩
  | op :: rest, uf, uf', k, h, hWF => by
    rw [applyOps] at h
    split at h
    · cases h
    · rename_i uf1 b hop
      cases hrest : applyOps uf1 rest with
      | none => rw [hrest] at h; cases h
      | some q2 =>
        obtain ⟨uf2, k2⟩ := q2
        rw [hrest] at h
        cases h
        obtain ⟨hWF1, hlen1⟩ := applyOp_WF hop hWF
        obtain ⟨hWF2, hlen2⟩ := applyOps_WF rest uf1 uf2 k2 hrest hWF1
        exact ⟨hWF2, hlen2.trans hlen1⟩

/-- C8: in every state reachable from `Initialize(n)` by any sequence of
`Find` and `Union` operations, the parent mapping is a forest (following
parent pointers always reaches a self-parented root, never a cycle), and
`find` terminates successfully for every valid index `0 ≤ x < n`. -/
theorem reachable_forest_find_total (n : Nat) (ops : List Op) (uf' : UnionFind) (k : Nat)
    (h : applyOps (UnionFind.init n) ops = some (uf', k)) :
    Forest uf'.parent ∧ uf'.parent.length = n ∧
    (∀ x : Int, 0 ≤ x → x < (n : Int) → (uf'.find x).isSome = true) := by
  obtain ⟨hWF', hlen'⟩ := applyOps_WF ops (UnionFind.init n) uf' k h (WF_init n)
  rw [init_parent_length] at hlen'
  refine ⟨hWF'.2.2, hlen', ?_⟩
  intro x hx0 hx1
  have hxn : x.toNat < uf'.parent.length := by
    rw [hlen']
    omega
  obtain ⟨uf'', r, hfind⟩ := find_dom hWF' hxn
  rw [Int.toNat_of_nonneg hx0] at hfind
  rw [hfind]
  rfl

/-- Witness for C8 after one union on two fresh singletons. -/
theorem reachable_forest_find_total_witness :
    Forest (UnionFind.mk [0, 0] [1, 0] 1).parent ∧
    ((UnionFind.mk [0, 0] [1, 0] 1).find 1).isSome = true := by
  have h := reachable_forest_find_total 2 [Op.union 0 1]
    (UnionFind.mk [0, 0] [1, 0] 1) 1 (by decide)
  exact ⟨h.1, h.2.2 1 (by decide) (by decide)⟩

/-- C4 (amended): after `Union(x, y)` the representatives of `x` and `y`
agree; a repeated `Union(x, y)` on two elements already in the same component
returns `False`, leaves the component count unchanged, and preserves the
whole partition (every element keeps its root), although path compression
inside the two `find` calls may still rewrite parent pointers. -/
theorem union_connects_and_noop (uf uf' : UnionFind) (x y : Int) (b : Bool)
    (hWF : WF uf) (hx0 : 0 ≤ x) (hx1 : x < (uf.parent.length : Int))
    (hy0 : 0 ≤ y) (hy1 : y < (uf.parent.length : Int))
    (h : uf.union x y = some (uf', b)) :
    (∃ r, Option.map Prod.snd (uf'.find x) = some r ∧
      Option.map Prod.snd (uf'.find y) = some r) ∧
    ((∃ rr, Option.map Prod.snd (uf.find x) = some rr ∧
      Option.map Prod.snd (uf.find y) = some rr) → b = false) ∧
    (b = false → uf'.component_count = uf.component_count ∧
      (∀ m, m < uf.parent.length → rootOf uf'.parent m = rootOf uf.parent m)) := by
  obtain ⟨hWF', hlen', hfalse, htrue⟩ := union_preserves h hWF
  have hidxx : pyIdx uf.parent.length x = some x.toNat := pyIdx_nonneg hx0 hx1
  have hidxy : pyIdx uf.parent.length y = some y.toNat := pyIdx_nonneg hy0 hy1
  have hxnlt : x.toNat < uf.parent.length := pyIdx_some_lt hidxx
  have hynlt : y.toNat < uf.parent.length := pyIdx_some_lt hidxy
  refine ⟨?_, ?_, ?_⟩
  · have hxn' : x.toNat < uf'.parent.length := by
      rw [hlen']
      exact hxnlt
    have hyn' : y.toNat < uf'.parent.length := by
      rw [hlen']
      exact hynlt
    obtain ⟨ufa, hfa, -⟩ := find_valid hWF' hxn'
    obtain ⟨ufb, hfb, -⟩ := find_valid hWF' hyn'
    rw [Int.toNat_of_nonneg hx0] at hfa
    rw [Int.toNat_of_nonneg hy0] at hfb
    have hroots_eq : rootOf uf'.parent x.toNat = rootOf uf'.parent y.toNat := by
      cases b with
      | false =>
        obtain ⟨hpres, hsame⟩ := hfalse rfl
        rw [hpres _ hxnlt, hpres _ hynlt]
        exact hsame x.toNat y.toNat hidxx hidxy
      | true =>
        obtain ⟨rwin, rlose, -, -, hne, hmap, hchar⟩ := htrue rfl
        rw [hmap _ hxnlt, hmap _ hynlt]
        rcases hchar x.toNat y.toNat hidxx hidxy with ⟨hcx, hcy⟩ | ⟨hcx, hcy⟩
        · rw [hcx, hcy, if_neg hne, if_pos rfl]
        · rw [hcx, hcy, if_pos rfl, if_neg hne]
    refine ⟨((rootOf uf'.parent x.toNat : Nat) : Int), ?_, ?_⟩
    · rw [hfa]
      rfl
    · rw [hfb, hroots_eq]
      rfl
  · intro hex
    obtain ⟨rr, hfx, hfy⟩ := hex
    unfold UnionFind.union at h
    split at h
    · cases h
    · rename_i uf1 root_x hx
      split at h
      · cases h
      · rename_i uf2 root_y hy
        rw [hx] at hfx
        simp only [Option.map_some'] at hfx
        have hrxr : root_x = rr := Option.some.inj hfx
        cases hfy' : uf.find y with
        | none =>
          rw [hfy'] at hfy
          cases hfy
        | some qb =>
          obtain ⟨ufb, rb⟩ := qb
          rw [hfy'] at hfy
          simp only [Option.map_some'] at hfy
          have hrbr : rb = rr := Option.some.inj hfy
          obtain ⟨hWF1, hlen1, -, -, hpres1, hrx0', -, hrxchar, -⟩ := find_preserves hx hWF
          obtain ⟨-, -, -, -, -, hrb0, -, hrbchar, -⟩ := find_preserves hfy' hWF
          obtain ⟨-, -, -, -, -, hry0', -, hrychar', -⟩ := find_preserves hy hWF1
          have h1 : root_x.toNat = rootOf uf.parent x.toNat := hrxchar _ hidxx
          have h2 : rb.toNat = rootOf uf.parent y.toNat := hrbchar _ hidxy
          have h3 : root_y.toNat = rootOf uf.parent y.toNat := by
            have h4 := hrychar' y.toNat (by rw [hlen1]; exact hidxy)
            rw [h4]
            exact hpres1 _ hynlt
          have hxy : root_x = root_y := by
            have htn : root_x.toNat = root_y.toNat := by
              calc root_x.toNat = rb.toNat := by rw [hrxr, hrbr]
                _ = rootOf uf.parent y.toNat := h2
                _ = root_y.toNat := h3.symm
            omega
          split at h
          · rename_i heq
            have hpair := Option.some.inj h
            exact (congrArg Prod.snd hpair).symm
          · rename_i hne2
            exact absurd hxy hne2
  · intro hb
    subst hb
    refine ⟨?_, (hfalse rfl).1⟩
    have := union_count h
    simpa using this

/-- Counterexample to C4 as stated: after `union(0,1)`, `union(2,3)` and
`union(1,3)` on four fresh singletons, the repeated call `union(1, 3)`
returns `False` and leaves the component count at 1, but it does change the
state: path compression rewrites `parent[3]` from `2` to `0`. -/
theorem repeated_union_state_change_counterexample :
    ((UnionFind.init 4).union 0 1 = some (UnionFind.mk [0, 0, 2, 3] [1, 0, 0, 0] 3, true)) ∧
    ((UnionFind.mk [0, 0, 2, 3] [1, 0, 0, 0] 3).union 2 3
      = some (UnionFind.mk [0, 0, 2, 2] [1, 0, 1, 0] 2, true)) ∧
    ((UnionFind.mk [0, 0, 2, 2] [1, 0, 1, 0] 2).union 1 3
      = some (UnionFind.mk [0, 0, 0, 2] [2, 0, 1, 0] 1, true)) ∧
    ((UnionFind.mk [0, 0, 0, 2] [2, 0, 1, 0] 1).union 1 3
      = some (UnionFind.mk [0, 0, 0, 0] [2, 0, 1, 0] 1, false)) ∧
    UnionFind.mk [0, 0, 0, 0] [2, 0, 1, 0] 1 ≠ UnionFind.mk [0, 0, 0, 2] [2, 0, 1, 0] 1 :=
  ⟨by decide, by decide, by decide, by decide, by decide⟩

/-- Witness for the amended C4: a repeated union on a merged two-element
structure leaves both representatives equal. -/
theorem union_connects_and_noop_witness :
    Option.map Prod.snd ((UnionFind.mk [0, 0] [1, 0] 1).find 0)
      = Option.map Prod.snd ((UnionFind.mk [0, 0] [1, 0] 1).find 1) := by
  have hWFS : WF (UnionFind.mk [0, 0] [1, 0] 1) :=
    (applyOps_WF [Op.union 0 1] (UnionFind.init 2) (UnionFind.mk [0, 0] [1, 0] 1) 1
      (by decide) (WF_init 2)).1
  obtain ⟨⟨r, h1, h2⟩, -, -⟩ :=
    union_connects_and_noop (UnionFind.mk [0, 0] [1, 0] 1) (UnionFind.mk [0, 0] [1, 0] 1)
      0 1 false hWFS (by decide) (by decide) (by decide) (by decide) (by decide)
  rw [h1, h2]

/-! ### Component sizes (C7) -/

theorem bump_values_sum : ∀ (m : List (Int × Int)) (r : Int),
    ((bump m r).map (fun e => e.2)).sum = (m.map (fun e => e.2)).sum + 1
  | [], r => by simp [bump]
  | (k, v) :: rest, r => by
    by_cases hk : k = r
    · rw [bump, if_pos hk]
      simp only [List.map_cons, List.sum_cons]
      ring
    · rw [bump, if_neg hk]
      simp only [List.map_cons, List.sum_cons]
      rw [bump_values_sum rest r]
      ring

theorem bump_keys : ∀ (m : List (Int × Int)) (r : Int),
    (bump m r).map (fun e => e.1) =
      if r ∈ m.map (fun e => e.1) then m.map (fun e => e.1)
      else m.map (fun e => e.1) ++ [r]
  | [], r => by simp [bump]
  | (k, v) :: rest, r => by
    by_cases hk : k = r
    · subst hk
      rw [bump, if_pos rfl]
      rw [if_pos (by simp)]
      simp
    · rw [bump, if_neg hk]
      simp only [List.map_cons]
      rw [bump_keys rest r]
      by_cases hr : r ∈ rest.map (fun e => e.1)
      · rw [if_pos hr, if_pos (by simp [hr])]
      · rw [if_neg hr, if_neg (by
          intro hmem
          rcases List.mem_cons.mp hmem with h | h
          · exact hk h.symm
          · exact hr h)]
        simp

theorem bump_keys_nodup {m : List (Int × Int)} (r : Int)
    (h : (m.map (fun e => e.1)).Nodup) : ((bump m r).map (fun e => e.1)).Nodup := by
  rw [bump_keys]
  split
  · exact h
  · rename_i hr
    simp [List.nodup_append, h, hr]

theorem bump_keys_mem {m : List (Int × Int)} {r t : Int} :
    t ∈ (bump m r).map (fun e => e.1) ↔ t ∈ m.map (fun e => e.1) ∨ t = r := by
  rw [bump_keys]
  split
  · rename_i hr
    constructor
    · exact Or.inl
    · rintro (h | rfl)
      · exact h
      · exact hr
  · simp

theorem sizeMapAux_spec : ∀ (is : List Nat) (uf : UnionFind) (m : List (Int × Int)),
    WF uf → (∀ i, i ∈ is → i < uf.parent.length) →
    ∃ uf' m', sizeMapAux uf is m = some (uf', m') ∧ WF uf' ∧
      uf'.parent.length = uf.parent.length ∧
      (∀ j, j < uf.parent.length → rootOf uf'.parent j = rootOf uf.parent j) ∧
      (m'.map (fun e => e.2)).sum = (m.map (fun e => e.2)).sum + (is.length : Int) ∧
      ((m.map (fun e => e.1)).Nodup → (m'.map (fun e => e.1)).Nodup) ∧
      (∀ t : Int, t ∈ m'.map (fun e => e.1) ↔
        t ∈ m.map (fun e => e.1) ∨ ∃ i, i ∈ is ∧ ((rootOf uf.parent i : Nat) : Int) = t)
  | [], uf, m, hWF, _ =>
    ⟨uf, m, rfl, hWF, rfl, fun j _ => rfl, by simp, fun h => h, by simp⟩
  | i :: is, uf, m, hWF, hvalid => by
    obtain ⟨uf1, hfind, hWF1, hlen1, hrk1, hc1, hpres1⟩ := find_valid hWF (hvalid i (by simp))
    have hvalid1 : ∀ j, j ∈ is → j < uf1.parent.length := by
      intro j hj
      rw [hlen1]
      exact hvalid j (by simp [hj])
    obtain ⟨uf', m', hrun, hWF', hlen', hpres', hsum', hnodup', hmem'⟩ :=
      sizeMapAux_spec is uf1 (bump m ((rootOf uf.parent i : Nat) : Int)) hWF1 hvalid1
    refine ⟨uf', m', ?_, hWF', hlen'.trans hlen1, ?_, ?_, ?_, ?_⟩
    · simp only [sizeMapAux, hfind]
      exact hrun
    · intro j hj
      rw [hpres' j (by rw [hlen1]; exact hj), hpres1 j hj]
    · rw [hsum', bump_values_sum]
      simp only [List.length_cons]
      push_cast
      ring
    · intro hnd
      exact hnodup' (bump_keys_nodup _ hnd)
    · intro t
      rw [hmem' t, bump_keys_mem]
      constructor
      · rintro ((h | h) | ⟨j, hj, hroot⟩)
        · exact Or.inl h
        · exact Or.inr ⟨i, by simp, h.symm⟩
        · refine Or.inr ⟨j, by simp [hj], ?_⟩
          rw [← hroot, hpres1 j (hvalid1 j hj |>.trans_eq hlen1)]
      · rintro (h | ⟨j, hj, hroot⟩)
        · exact Or.inl (Or.inl h)
        · rcases List.mem_cons.mp hj with rfl | hj'
          · exact Or.inl (Or.inr hroot.symm)
          · refine Or.inr ⟨j, hj', ?_⟩
            rw [hpres1 j (hvalid j hj)]
            exact hroot

theorem size_map_spec {uf : UnionFind} (hWF : WF uf) :
    ∃ uf' m', uf.size_map = some (uf', m') ∧ WF uf' ∧
      uf'.parent.length = uf.parent.length ∧
      (m'.map (fun e => e.2)).sum = (uf.parent.length : Int) ∧
      (m'.map (fun e => e.1)).Nodup ∧
      (∀ t : Int, t ∈ m'.map (fun e => e.1) ↔
        ∃ i, i < uf.parent.length ∧ ((rootOf uf.parent i : Nat) : Int) = t) := by
  obtain ⟨uf', m', hrun, hWF', hlen', hpres', hsum', hnodup', hmem'⟩ :=
    sizeMapAux_spec (List.range uf.parent.length) uf [] hWF
      (fun i hi => List.mem_range.mp hi)
  refine ⟨uf', m', hrun, hWF', hlen', ?_, hnodup' (by simp), ?_⟩
  · rw [hsum']
    simp
  · intro t
    rw [hmem' t]
    simp [List.mem_range]

/-- C7: in every state reachable from `n` singletons by `Union`/`Find`
operations, `get_component_sizes` succeeds, its sizes sum to exactly `n`, and
the underlying `size_map` has exactly one entry per distinct live root. -/
theorem component_sizes_sum (n : Nat) (ops : List Op) (uf' : UnionFind) (k : Nat)
    (h : applyOps (UnionFind.init n) ops = some (uf', k)) :
    ∃ uf'' m, uf'.size_map = some (uf'', m) ∧
      uf'.get_component_sizes = some (uf'', m.map (fun e => e.2)) ∧
      (m.map (fun e => e.2)).sum = (n : Int) ∧
      (m.map (fun e => e.1)).Nodup ∧
      (∀ t : Int, t ∈ m.map (fun e => e.1) ↔
        ∃ i, i < n ∧ ((rootOf uf'.parent i : Nat) : Int) = t) := by
  obtain ⟨hWF', hlen'⟩ := applyOps_WF ops _ uf' k h (WF_init n)
  rw [init_parent_length] at hlen'
  obtain ⟨uf'', m, hrun, -, -, hsum, hnd, hmem⟩ := size_map_spec hWF'
  refine ⟨uf'', m, hrun, ?_, by rw [hsum, hlen'], hnd, ?_⟩
  · unfold UnionFind.get_component_sizes
    rw [hrun]
    rfl
  · intro t
    rw [hmem t, hlen']

/-- Witness for C7 after one union on two fresh singletons: one component of
size 2, sizes summing to 2. -/
theorem component_sizes_sum_witness :
    (UnionFind.mk [0, 0] [1, 0] 1).get_component_sizes
      = some (UnionFind.mk [0, 0] [1, 0] 1, [2]) ∧
    (([((0 : Int), (2 : Int))]).map (fun e => e.2)).sum = ((2 : Nat) : Int) := by
  obtain ⟨uf'', m, h1, h2, h3, -, -⟩ :=
    component_sizes_sum 2 [Op.union 0 1] (UnionFind.mk [0, 0] [1, 0] 1) 1 (by decide)
  have hc : (UnionFind.mk [0, 0] [1, 0] 1).size_map
      = some (UnionFind.mk [0, 0] [1, 0] 1, [((0 : Int), (2 : Int))]) := by decide
  rw [hc] at h1
  have he := Option.some.inj h1
  have h4 : uf'' = UnionFind.mk [0, 0] [1, 0] 1 := (congrArg Prod.fst he).symm
  have h5 : m = [((0 : Int), (2 : Int))] := (congrArg Prod.snd he).symm
  subst h4
  subst h5
  exact ⟨h2, h3⟩

/-! ### Distance pairs (C9) -/

theorem calculate_distance_symm (c1 c2 : Coordinate) :
    calculate_distance c1 c2 = calculate_distance c2 c1 := by
  unfold calculate_distance
  push_cast
  ring_nf

theorem calculate_distance_nonneg (c1 c2 : Coordinate) : 0 ≤ calculate_distance c1 c2 :=
  Real.sqrt_nonneg _

/-- C9: `calculate_all_distances` produces exactly `n (n - 1) / 2` triples,
one per unordered pair `i < j < n`, listed in the canonical order `i`
ascending then `j` ascending (strict lexicographic order on the index pair),
each carrying the (symmetric, non-negative) Euclidean distance of its two
endpoints. -/
theorem calculate_all_distances_spec (coordinates : List Coordinate) :
    (calculate_all_distances coordinates).length
        = coordinates.length * (coordinates.length - 1) / 2 ∧
    List.Pairwise (fun a b : DistancePair =>
      a.2.1 < b.2.1 ∨ (a.2.1 = b.2.1 ∧ a.2.2 < b.2.2)) (calculate_all_distances coordinates) ∧
    (∀ i j : Nat, i < j → j < coordinates.length →
      (calculate_distance (coordinates.getD i (0, 0, 0)) (coordinates.getD j (0, 0, 0)),
        (i : Int), (j : Int)) ∈ calculate_all_distances coordinates) ∧
    (∀ t, t ∈ calculate_all_distances coordinates →
      ∃ i j : Nat, i < j ∧ j < coordinates.length ∧
        t = (calculate_distance (coordinates.getD i (0, 0, 0)) (coordinates.getD j (0, 0, 0)),
          (i : Int), (j : Int))) ∧
    (∀ c1 c2 : Coordinate, calculate_distance c1 c2 = calculate_distance c2 c1 ∧
      0 ≤ calculate_distance c1 c2) := by
  refine ⟨?_, ?_, ?_, ?_, fun c1 c2 => ⟨calculate_distance_symm c1 c2,
    calculate_distance_nonneg c1 c2⟩⟩
  · rw [show calculate_all_distances coordinates = (List.range coordinates.length).flatMap
      (fun i => (List.range' (i + 1) (coordinates.length - (i + 1))).map (fun j =>
        (calculate_distance (coordinates.getD i (0, 0, 0)) (coordinates.getD j (0, 0, 0)),
          (i : Int), (j : Int)))) from rfl]
    rw [List.length_flatMap]
    have h1 : List.map (List.length ∘ fun i =>
        (List.range' (i + 1) (coordinates.length - (i + 1))).map (fun j =>
          (calculate_distance (coordinates.getD i (0, 0, 0)) (coordinates.getD j (0, 0, 0)),
            (i : Int), (j : Int)))) (List.range coordinates.length)
        = (List.range coordinates.length).map
            (fun i => coordinates.length - (i + 1)) := by
      apply List.map_congr_left
      intro i _
      simp [List.length_range']
    rw [h1]
    have h2 : ((List.range coordinates.length).map
        (fun i => coordinates.length - (i + 1))).sum
        = ∑ i in Finset.range coordinates.length, (coordinates.length - 1 - i) := by
      show ∑ i in Finset.range coordinates.length, (coordinates.length - (i + 1)) = _
      exact Finset.sum_congr rfl (fun i _ => by omega)
    rw [h2, Finset.sum_range_reflect (fun i => i) coordinates.length]
    have h3 := Finset.sum_range_id_mul_two coordinates.length
    omega
  · rw [show calculate_all_distances coordinates = ((List.range coordinates.length).map
      (fun i => (List.range' (i + 1) (coordinates.length - (i + 1))).map (fun j =>
        (calculate_distance (coordinates.getD i (0, 0, 0)) (coordinates.getD j (0, 0, 0)),
          (i : Int), (j : Int))))).flatten from rfl]
    rw [List.pairwise_join]
    constructor
    · intro l hl
      rw [List.mem_map] at hl
      obtain ⟨i, -, rfl⟩ := hl
      rw [List.pairwise_map]
      refine List.Pairwise.imp ?_ (List.pairwise_lt_range' (i + 1)
        (coordinates.length - (i + 1)))
      intro j1 j2 hj
      refine Or.inr ⟨rfl, ?_⟩
      show (j1 : Int) < (j2 : Int)
      exact_mod_cast hj
    · rw [List.pairwise_map]
      refine List.Pairwise.imp ?_ (List.pairwise_lt_range coordinates.length)
      intro i1 i2 hi x hx y hy
      rw [List.mem_map] at hx hy
      obtain ⟨j1, -, rfl⟩ := hx
      obtain ⟨j2, -, rfl⟩ := hy
      refine Or.inl ?_
      show (i1 : Int) < (i2 : Int)
      exact_mod_cast hi
  · intro i j hij hjn
    rw [show calculate_all_distances coordinates = (List.range coordinates.length).flatMap
      (fun i => (List.range' (i + 1) (coordinates.length - (i + 1))).map (fun j =>
        (calculate_distance (coordinates.getD i (0, 0, 0)) (coordinates.getD j (0, 0, 0)),
          (i : Int), (j : Int)))) from rfl]
    rw [List.mem_flatMap]
    refine ⟨i, List.mem_range.mpr (lt_trans hij hjn), ?_⟩
    rw [List.mem_map]
    exact ⟨j, List.mem_range'_1.mpr ⟨by omega, by omega⟩, rfl⟩
  · intro t ht
    rw [show calculate_all_distances coordinates = (List.range coordinates.length).flatMap
      (fun i => (List.range' (i + 1) (coordinates.length - (i + 1))).map (fun j =>
        (calculate_distance (coordinates.getD i (0, 0, 0)) (coordinates.getD j (0, 0, 0)),
          (i : Int), (j : Int)))) from rfl] at ht
    rw [List.mem_flatMap] at ht
    obtain ⟨i, hi, hmem⟩ := ht
    rw [List.mem_map] at hmem
    obtain ⟨j, hj, rfl⟩ := hmem
    rw [List.mem_range] at hi
    rw [List.mem_range'_1] at hj
    exact ⟨i, j, by omega, by omega, rfl⟩

/-- Witness for C9 on a concrete two-point input. -/
theorem calculate_all_distances_spec_witness :
    (calculate_all_distances [((0 : Int), (0 : Int), (0 : Int)), ((3 : Int), (4 : Int), (0 : Int))]).length = 1 ∧
    (calculate_distance ((0 : Int), (0 : Int), (0 : Int)) ((3 : Int), (4 : Int), (0 : Int)),
        (0 : Int), (1 : Int))
      ∈ calculate_all_distances [((0 : Int), (0 : Int), (0 : Int)), ((3 : Int), (4 : Int), (0 : Int))] ∧
    0 ≤ calculate_distance ((0 : Int), (0 : Int), (0 : Int)) ((3 : Int), (4 : Int), (0 : Int)) := by
  obtain ⟨h1, -, h3, -, h5⟩ := calculate_all_distances_spec
    [((0 : Int), (0 : Int), (0 : Int)), ((3 : Int), (4 : Int), (0 : Int))]
  refine ⟨by rw [h1]; rfl, ?_, (h5 _ _).2⟩
  have h4 := h3 0 1 (by decide) (by decide)
  simpa using h4

/-! ### The full out-of-range characterization of `find` (C5) -/

theorem find_neg_dom {uf : UnionFind} (hWF : WF uf) {x : Int}
    (h1 : -(uf.parent.length : Int) ≤ x) (h2 : x < 0) :
    ∃ uf' r, uf.find x = some (uf', r) := by
  obtain ⟨hlen, hIR, hF⟩ := hWF
  have hk : ((x + (uf.parent.length : Int)).toNat) < uf.parent.length := by omega
  have hidx : pyIdx uf.parent.length x = some (x + (uf.parent.length : Int)).toNat := by
    unfold pyIdx
    rw [if_neg (by omega), if_pos ⟨h1, h2⟩]
  have hget : pyGet uf.parent x
      = some (uf.parent.get ⟨(x + (uf.parent.length : Int)).toNat, hk⟩) := by
    unfold pyGet
    rw [hidx]
    simp [List.get?_eq_get hk]
  obtain ⟨hp0, hplt⟩ := hIR _ (uf.parent.get_mem (x + (uf.parent.length : Int)).toNat hk)
  have hpx : ¬ (uf.parent.get ⟨(x + (uf.parent.length : Int)).toNat, hk⟩) = x := by omega
  have hplt' : (uf.parent.get ⟨(x + (uf.parent.length : Int)).toNat, hk⟩).toNat
      < uf.parent.length := by omega
  obtain ⟨k', hk', hfix⟩ := reaches_small hIR hplt' (hF _ hplt')
  obtain ⟨uf1, r, hrec⟩ :=
    findAux_dom uf.parent.length uf
      (uf.parent.get ⟨(x + (uf.parent.length : Int)).toNat, hk⟩).toNat hIR hplt' ⟨k', hk', hfix⟩
  rw [Int.toNat_of_nonneg hp0] at hrec
  have hlen1 : uf1.parent.length = uf.parent.length :=
    (findAux_count _ uf _ uf1 r hrec).2.2
  have hidx1 : pyIdx uf1.parent.length x = some (x + (uf.parent.length : Int)).toNat := by
    rw [hlen1]
    exact hidx
  have hfin := findAux_rec hget hpx hrec (pySet_of_idx r hidx1)
  exact ⟨_, r, hfin⟩

/-- C5 (amended): on every well-formed structure state of size `n` (the
initial state is well-formed and `find`/`union` preserve this), `find(x)`
fails with an out-of-range `IndexError` exactly when `x ≥ n` or `x < -n`;
for `-n ≤ x < 0` Python negative indexing applies and `find` silently
returns a representative instead of failing. -/
theorem find_fails_iff_out_of_range (uf : UnionFind) (x : Int) (hWF : WF uf) :
    (uf.find x = none ↔
      ((uf.parent.length : Int) ≤ x ∨ x < -(uf.parent.length : Int))) ∧
    (-(uf.parent.length : Int) ≤ x → x < 0 → ∃ uf' r, uf.find x = some (uf', r)) := by
  refine ⟨⟨?_, find_out_of_range uf x⟩, fun h1 h2 => find_neg_dom hWF h1 h2⟩
  intro hnone
  by_contra hout
  push_neg at hout
  obtain ⟨ho1, ho2⟩ := hout
  rcases lt_or_ge x 0 with hx | hx
  · obtain ⟨uf', r, hsome⟩ := find_neg_dom hWF (by omega) hx
    rw [hsome] at hnone
    cases hnone
  · have hxlt : x.toNat < uf.parent.length := by omega
    obtain ⟨uf', r, hsome⟩ := find_dom hWF hxlt
    rw [Int.toNat_of_nonneg hx] at hsome
    rw [hsome] at hnone
    cases hnone

/-- Witness for the amended C5 on a fresh size-3 structure: index 5 fails
with `IndexError`, index `-1` does not fail. -/
theorem find_fails_iff_out_of_range_witness :
    (UnionFind.init 3).find 5 = none ∧ ¬ ((UnionFind.init 3).find (-1) = none) := by
  have h5 := find_fails_iff_out_of_range (UnionFind.init 3) 5 (WF_init 3)
  have hm1 := find_fails_iff_out_of_range (UnionFind.init 3) (-1) (WF_init 3)
  refine ⟨h5.1.mpr (by decide), ?_⟩
  obtain ⟨uf', r, hsome⟩ := hm1.2 (by decide) (by decide)
  rw [hsome]
  simp

end Day8
